import Mathlib

/-!
Shallow embedding of the core lexer of `src/libsyntax/parse/lexer/mod.rs`
(`StringReader`), together with proofs of span, classification and error
handling properties.  The source buffer is modelled as a `List Char` (the
program requires valid UTF-8, so the byte buffer is exactly the UTF-8
encoding of such a list); byte positions (`BytePos`) are `Nat` byte
offsets computed with the UTF-8 length of each scalar, with
`start_pos = 0`.  The external collaborators (interner, diagnostic
handler) are modelled directly: `Symbol.intern` is the identity on the
character list, diagnostics are accumulated in a list carried by the
state.  The lexer under study is constructed with `override_span = None`
(the `new_raw` path), so `mk_sp` is the raw span `(lo, hi)`.
-/

namespace RustLexer

/-- UTF-8 encoded length in bytes of one scalar value, as `char::len_utf8`. -/
def utf8Len (c : Char) : Nat :=
  if c.toNat < 0x80 then 1
  else if c.toNat < 0x800 then 2
  else if c.toNat < 0x10000 then 3
  else 4

/-- Total UTF-8 byte length of a character list (the Rust `str::len`). -/
def byteLen : List Char → Nat
  | [] => 0
  | c :: cs => utf8Len c + byteLen cs

/-- Drop the characters of `l` that lie before byte offset `n`; at a
character boundary this is the suffix of the buffer starting at byte `n`. -/
def dropB : List Char → Nat → List Char
  | l, 0 => l
  | [], _ => []
  | c :: cs, n => dropB cs (n - utf8Len c)

/-- Take characters of `l` amounting to `n` bytes; at a boundary this is
the prefix of the buffer of byte length `n`. -/
def takeB : List Char → Nat → List Char
  | _, 0 => []
  | [], _ => []
  | c :: cs, n => c :: takeB cs (n - utf8Len c)

/-- The source slice under the half-open byte range `[lo, hi)`
(the Rust `&self.src[lo..hi]` used by `with_str_from_to`). -/
def sliceB (src : List Char) (lo hi : Nat) : List Char :=
  takeB (dropB src lo) (hi - lo)

/-- Interned symbols: the external interner is injective, so a symbol is
modelled by the interned text itself. -/
abbrev Symbol := List Char

namespace token

/-- `token::DelimToken`. -/
inductive DelimToken where
  | Paren | Bracket | Brace
  deriving DecidableEq, Repr

/-- `token::BinOpToken`. -/
inductive BinOpToken where
  | Plus | Minus | Star | Slash | Percent | Caret | And | Or | Shl | Shr
  deriving DecidableEq, Repr

/-- `token::Lit`: the payload of a `Literal` token.  (`Char`/`Str_` are
renamed `charLit`/`strLit` to avoid clashing with the Lean `Char` type.) -/
inductive Lit where
  | integer (sym : Symbol)
  | float (sym : Symbol)
  | charLit (sym : Symbol)
  | byteLit (sym : Symbol)
  | strLit (sym : Symbol)
  | byteStr (sym : Symbol)
  | strRaw (sym : Symbol) (hashes : Nat)
  | byteStrRaw (sym : Symbol) (hashes : Nat)
  deriving DecidableEq, Repr

/-- `token::Token`, restricted to the kinds the lexer can emit. -/
inductive Tok where
  | Eq | Lt | Le | EqEq | Ne | Ge | Gt | AndAnd | OrOr | Not | Tilde
  | BinOp (op : BinOpToken) | BinOpEq (op : BinOpToken)
  | At | Dot | DotDot | DotDotDot | DotDotEq | Comma | Semi | Colon
  | ModSep | RArrow | LArrow | FatArrow | Pound | Dollar | Question
  | OpenDelim (d : DelimToken) | CloseDelim (d : DelimToken)
  | Literal (lit : Lit) (suffix : Option Symbol)
  | Ident (sym : Symbol) (is_raw : Bool)
  | Lifetime (sym : Symbol)
  | Whitespace | Comment
  | DocComment (sym : Symbol)
  | Shebang (sym : Symbol)
  | Eof
  deriving DecidableEq, Repr

end token

/-- Severity of an emitted diagnostic (`err_span_` emits at error level,
`struct_span_warn` at warning level, `struct_span_fatal` builds a
fatal-severity diagnostic that `emit()` reports without unwinding). -/
inductive Level where
  | warn | error | fatalLevel
  deriving DecidableEq, Repr

/-- One diagnostic accepted by the external handler, with its span. -/
structure Diag where
  lo : Nat
  hi : Nat
  msg : String
  level : Level
  deriving DecidableEq, Repr

/-- Abort reasons: `FatalError.raise()` after a `span_fatal`
(carrying span and message), the `Err(())` path of `next_token_inner`
(unknown start of token, which buffers the diagnostic first), and the
`unreachable!()`/`expect` panics. -/
inductive LexFatal where
  | fatal (lo hi : Nat) (msg : String)
  | unknownTokenStart (lo hi : Nat) (c : Char)
  | unreachableState
  | outOfFuel
  deriving DecidableEq, Repr

instance {ε α : Type} [DecidableEq ε] [DecidableEq α] :
    DecidableEq (Except ε α)
  | .error e1, .error e2 =>
      if h : e1 = e2 then .isTrue (by rw [h])
      else .isFalse (by intro hc; cases hc; exact h rfl)
  | .error _, .ok _ => .isFalse (by intro hc; cases hc)
  | .ok _, .error _ => .isFalse (by intro hc; cases hc)
  | .ok a1, .ok a2 =>
      if h : a1 = a2 then .isTrue (by rw [h])
      else .isFalse (by intro hc; cases hc; exact h rfl)

/-- The cursor portion of `StringReader`: the shared source text, the two
byte offsets, the one-character cache, and the diagnostics emitted so far
through the external handler.  `start_pos = 0` and
`end_src_index = byteLen src` for the constructor under study. -/
structure LexState where
  src : List Char
  pos : Nat
  next_pos : Nat
  ch : Option Char
  errs : List Diag
  deriving DecidableEq, Repr

namespace LexState

/-- `StringReader::bump`: read the scalar at `next_pos` if it is before
`end_src_index`, else park at EOF.  `(dropB src next_pos).head?` is the
`char_at(src, next_src_index)` read guarded by `next_src_index <
end_src_index`: at a boundary it is `some` exactly below the end index. -/
def bump (st : LexState) : LexState :=
  match (dropB st.src st.next_pos).head? with
  | some c =>
      { st with ch := some c, pos := st.next_pos,
                next_pos := st.next_pos + utf8Len c }
  | none =>
      { st with ch := none, pos := st.next_pos }

/-- `StringReader::nextch`. -/
def nextch (st : LexState) : Option Char :=
  (dropB st.src st.next_pos).head?

/-- `StringReader::nextnextch`. -/
def nextnextch (st : LexState) : Option Char :=
  match dropB st.src st.next_pos with
  | _ :: rest => rest.head?
  | [] => none

/-- `StringReader::ch_is`. -/
def ch_is (st : LexState) (c : Char) : Bool := st.ch = some c

/-- `StringReader::nextch_is`. -/
def nextch_is (st : LexState) (c : Char) : Bool := st.nextch = some c

/-- `StringReader::nextnextch_is`. -/
def nextnextch_is (st : LexState) (c : Char) : Bool := st.nextnextch = some c

/-- `StringReader::is_eof`. -/
def is_eof (st : LexState) : Bool := st.ch.isNone

/-- Emit one diagnostic through the external handler
(`err_span_` / `struct_span_warn().emit()` / fatal-severity `emit()`). -/
def pushDiag (st : LexState) (lo hi : Nat) (msg : String) (lv : Level) :
    LexState :=
  { st with errs := st.errs ++ [⟨lo, hi, msg, lv⟩] }

/-- `name_from`: intern the slice from `start` up to the current `pos`. -/
def name_from (st : LexState) (start : Nat) : Symbol :=
  sliceB st.src start st.pos

/-- `name_from_to`: intern the slice between two offsets. -/
def name_from_to (st : LexState) (start stop : Nat) : Symbol :=
  sliceB st.src start stop

end LexState

theorem utf8Len_pos (c : Char) : 1 ≤ utf8Len c := by
  unfold utf8Len
  split <;> [exact le_refl 1; split <;> [omega; split <;> omega]]

theorem dropB_zero (l : List Char) : dropB l 0 = l := by
  cases l <;> rfl

theorem dropB_nil (n : Nat) : dropB [] n = [] := by
  cases n <;> rfl

theorem dropB_cons_succ (c : Char) (cs : List Char) (n : Nat) :
    dropB (c :: cs) (n + 1) = dropB cs (n + 1 - utf8Len c) := rfl

theorem takeB_zero (l : List Char) : takeB l 0 = [] := by
  cases l <;> rfl

theorem takeB_nil (n : Nat) : takeB [] n = [] := by
  cases n <;> rfl

theorem takeB_cons_succ (c : Char) (cs : List Char) (n : Nat) :
    takeB (c :: cs) (n + 1) = c :: takeB cs (n + 1 - utf8Len c) := rfl

/-- A character visible through `dropB` starts strictly before the end of
the buffer. -/
theorem dropB_head_lt {src : List Char} {n : Nat} {c : Char}
    (h : (dropB src n).head? = some c) : n < byteLen src := by
  induction src generalizing n with
  | nil => rw [dropB_nil] at h; simp at h
  | cons a l ih =>
    cases n with
    | zero => have := utf8Len_pos a; simp [byteLen]; omega
    | succ m =>
      rw [dropB_cons_succ] at h
      have := ih h
      have := utf8Len_pos a
      simp only [byteLen]
      omega

theorem bump_src (st : LexState) : (st.bump).src = st.src := by
  unfold LexState.bump
  cases (dropB st.src st.next_pos).head? <;> rfl

theorem bump_errs (st : LexState) : (st.bump).errs = st.errs := by
  unfold LexState.bump
  cases (dropB st.src st.next_pos).head? <;> rfl

/-- The `Pattern_White_Space` Unicode property
(`core::unicode::property::Pattern_White_Space`); the property is
stability-guaranteed by Unicode, so its character set is fixed:
U+0009..U+000D, U+0020, U+0085, U+200E, U+200F, U+2028, U+2029. -/
def Pattern_White_Space (c : Char) : Bool :=
  decide (c.toNat = 0x09 ∨ c.toNat = 0x0A ∨ c.toNat = 0x0B ∨
    c.toNat = 0x0C ∨ c.toNat = 0x0D ∨ c.toNat = 0x20 ∨ c.toNat = 0x85 ∨
    c.toNat = 0x200E ∨ c.toNat = 0x200F ∨ c.toNat = 0x2028 ∨
    c.toNat = 0x2029)

/-- `is_pattern_whitespace`. -/
def is_pattern_whitespace (c : Option Char) : Bool :=
  c.elim false Pattern_White_Space

/-- Modelled from the spec: the Unicode `XID_Start` table lives in the
external `core::unicode` tables, which are not part of this repository;
§4.5 only requires it on non-ASCII characters.  Every property proved
here is exercised on ASCII inputs, where the code does not consult the
table, so the table is modelled as empty. -/
def is_xid_start (_c : Char) : Bool := false

/-- Modelled from the spec: the Unicode `XID_Continue` table, external to
the repository; modelled as empty exactly as [[is_xid_start]]. -/
def is_xid_continue (_c : Char) : Bool := false

/-- `ident_start`. -/
def ident_start (c : Option Char) : Bool :=
  match c with
  | none => false
  | some c =>
      decide (('a' ≤ c ∧ c ≤ 'z') ∨ ('A' ≤ c ∧ c ≤ 'Z') ∨ c = '_' ∨
        ('\x7f' < c ∧ is_xid_start c = true))

/-- `ident_continue`. -/
def ident_continue (c : Option Char) : Bool :=
  match c with
  | none => false
  | some c =>
      decide (('a' ≤ c ∧ c ≤ 'z') ∨ ('A' ≤ c ∧ c ≤ 'Z') ∨
        ('0' ≤ c ∧ c ≤ '9') ∨ c = '_' ∨
        ('\x7f' < c ∧ is_xid_continue c = true))

/-- `in_range`. -/
def in_range (c : Option Char) (lo hi : Char) : Bool :=
  c.elim false (fun c => decide (lo ≤ c ∧ c ≤ hi))

/-- `is_dec_digit`. -/
def is_dec_digit (c : Option Char) : Bool := in_range c '0' '9'

/-- `is_doc_comment` on the comment text.  `s.as_bytes().get(3)` is the
fourth byte; after the ASCII prefix `///` it is the leading byte of the
fourth character when one exists (`get` returns `None` otherwise), and a
leading UTF-8 byte equals `b'/'` exactly for the ASCII character `/`, so
the byte test coincides with the character test. -/
def is_doc_comment (s : List Char) : Bool :=
  (decide (s.take 3 = ['/', '/', '/'] ∧ s[3]? ≠ some '/')) ||
  (decide (s.take 3 = ['/', '/', '!']))

/-- `is_block_doc_comment`; `s.len()` is the byte length, and the fourth
byte is compared exactly as in [[is_doc_comment]]. -/
def is_block_doc_comment (s : List Char) : Bool :=
  (((decide (s.take 3 = ['/', '*', '*'] ∧ s[3]? ≠ some '*'))) ||
   (decide (s.take 3 = ['/', '*', '!']))) &&
  decide (5 ≤ byteLen s)

/-- Modelled from the spec: `Ident::can_be_raw` consults the keyword
table of the external `syntax_pos`/`ast` crates (not in this
repository); no property proved here depends on the reserved-word
rejection, so it is modelled as accepting every identifier. -/
def can_be_raw (_sym : Symbol) : Bool := true

/-- Modelled from the spec: `unicode_chars::check_for_substitution`
(file `lexer/unicode_chars.rs`, not present under `src/`) consults a
table of Unicode confusables and attaches a suggestion, returning whether
a substitution was found; the spec names U+2212 MINUS SIGN for `-` as its
example, which is the only entry this model recognizes. -/
def check_for_substitution (c : Char) : Bool := c = '−'

/-- `char::to_digit` of the Rust standard library. -/
def toDigit (c : Char) (radix : Nat) : Option Nat :=
  let d : Option Nat :=
    if '0' ≤ c ∧ c ≤ '9' then some (c.toNat - '0'.toNat)
    else if 'a' ≤ c ∧ c ≤ 'z' then some (c.toNat - 'a'.toNat + 10)
    else if 'A' ≤ c ∧ c ≤ 'Z' then some (c.toNat - 'A'.toNat + 10)
    else none
  match d with
  | some v => if v < radix then some v else none
  | none => none

theorem ch_eq_of_ch_is {st : LexState} {c : Char} (h : st.ch_is c = true) :
    st.ch = some c := of_decide_eq_true h

theorem isSome_of_ch_is {st : LexState} {c : Char} (h : st.ch_is c = true) :
    st.ch.isSome = true := by rw [ch_eq_of_ch_is h]; rfl

theorem isSome_of_not_eof {st : LexState} (h : ¬ st.is_eof = true) :
    st.ch.isSome = true := by
  cases hc : st.ch with
  | none => exact absurd (by simp [LexState.is_eof, hc]) h
  | some c => rfl

theorem isSome_of_pws {c : Option Char}
    (h : is_pattern_whitespace c = true) : c.isSome = true := by
  cases c with
  | none => simp [is_pattern_whitespace] at h
  | some c => rfl

theorem isSome_of_ident_continue {c : Option Char}
    (h : ident_continue c = true) : c.isSome = true := by
  cases c with
  | none => simp [ident_continue] at h
  | some c => rfl

theorem isSome_of_ident_start {c : Option Char}
    (h : ident_start c = true) : c.isSome = true := by
  cases c with
  | none => simp [ident_start] at h
  | some c => rfl

theorem isSome_of_dec_digit {c : Option Char}
    (h : is_dec_digit c = true) : c.isSome = true := by
  cases c with
  | none => simp [is_dec_digit, in_range] at h
  | some c => rfl

theorem pushDiag_src (st : LexState) (lo hi : Nat) (m : String)
    (lv : Level) : (st.pushDiag lo hi m lv).src = st.src := rfl

theorem pushDiag_ch (st : LexState) (lo hi : Nat) (m : String)
    (lv : Level) : (st.pushDiag lo hi m lv).ch = st.ch := rfl

theorem pushDiag_pos (st : LexState) (lo hi : Nat) (m : String)
    (lv : Level) : (st.pushDiag lo hi m lv).pos = st.pos := rfl

/-- The unread tail of the source, from the current position on. -/
def chRest (st : LexState) : List Char := dropB st.src st.pos

/-- Fuel bound used by every scanning loop: one more than the number of
unread characters.  Every loop iteration consumes at least one
character, so the bound is sufficient, which the lemmas below establish
through their fuel hypotheses; `LexFatal.outOfFuel` is therefore
unreachable from a well-formed state. -/
def fuelOf (st : LexState) : Nat := (chRest st).length + 1

/-- The whitespace run of `scan_whitespace_or_comment`:
`while is_pattern_whitespace(self.ch) { self.bump(); }`. -/
def eatWhitespaceF : Nat → LexState → LexState
  | 0, st => st
  | f + 1, st =>
      if is_pattern_whitespace st.ch then eatWhitespaceF f st.bump else st

/-- [[eatWhitespaceF]] with sufficient fuel. -/
def eatWhitespace (st : LexState) : LexState := eatWhitespaceF (fuelOf st) st

/-- The identifier tail: `while ident_continue(self.ch) { self.bump(); }`,
shared by `next_token_inner`, the lifetime scanner and
`scan_optional_raw_name`. -/
def eatIdentContinueF : Nat → LexState → LexState
  | 0, st => st
  | f + 1, st =>
      if ident_continue st.ch then eatIdentContinueF f st.bump else st

/-- [[eatIdentContinueF]] with sufficient fuel. -/
def eatIdentContinue (st : LexState) : LexState :=
  eatIdentContinueF (fuelOf st) st

/-- The shebang run: `while !self.ch_is('\n') && !self.is_eof()`. -/
def eatToEolF : Nat → LexState → LexState
  | 0, st => st
  | f + 1, st =>
      if ¬ st.ch_is '\n' = true ∧ ¬ st.is_eof = true then eatToEolF f st.bump
      else st

/-- [[eatToEolF]] with sufficient fuel. -/
def eatToEol (st : LexState) : LexState := eatToEolF (fuelOf st) st

/-- The body loop of the `//` comment arm of `scan_comment`; `doc` is the
doc-comment flag decided before the loop. -/
def lineCommentLoopF (doc : Bool) : Nat → LexState → LexState
  | 0, st => st
  | f + 1, st =>
    match st.ch with
    | none => st
    | some c =>
      if c = '\n' then st
      else if c = '\r' then
        if st.nextch_is '\n' then st
        else
          let st1 := if doc then
              st.pushDiag st.pos st.next_pos
                "bare CR not allowed in doc-comment" .error
            else st
          lineCommentLoopF doc f st1.bump
      else lineCommentLoopF doc f st.bump

/-- [[lineCommentLoopF]] with sufficient fuel. -/
def lineCommentLoop (doc : Bool) (st : LexState) : LexState :=
  lineCommentLoopF doc (fuelOf st) st

/-- The body loop of `scan_block_comment`; tracks the nesting `level` and
the `has_cr` flag. -/
def blockCommentLoopF (is_doc : Bool) (start_bpos : Nat) :
    Nat → LexState → Nat → Bool → Except LexFatal (LexState × Bool)
  | 0, _, _, _ => .error .outOfFuel
  | f + 1, st, level, has_cr =>
    if level = 0 then .ok (st, has_cr)
    else
      match st.ch with
      | none =>
          .error (.fatal start_bpos st.pos
            (if is_doc then "unterminated block doc-comment"
             else "unterminated block comment"))
      | some n =>
        if n = '/' ∧ st.nextch_is '*' then
          blockCommentLoopF is_doc start_bpos f st.bump.bump (level + 1) has_cr
        else if n = '*' ∧ st.nextch_is '/' then
          blockCommentLoopF is_doc start_bpos f st.bump.bump (level - 1) has_cr
        else if n = '\r' then
          blockCommentLoopF is_doc start_bpos f st.bump level true
        else
          blockCommentLoopF is_doc start_bpos f st.bump level has_cr

/-- [[blockCommentLoopF]] with sufficient fuel. -/
def blockCommentLoop (is_doc : Bool) (start_bpos : Nat) (st : LexState)
    (level : Nat) (has_cr : Bool) : Except LexFatal (LexState × Bool) :=
  blockCommentLoopF is_doc start_bpos (fuelOf st) st level has_cr

/-- `scan_digits`: consume digits of base `scanR` and underscores,
diagnosing digits that are valid in `scanR` but not in the true base
`real`; returns the number of digits consumed. -/
def scan_digitsF (real scanR : Nat) : Nat → LexState → Nat × LexState
  | 0, st => (0, st)
  | f + 1, st =>
    match st.ch with
    | none => (0, st)
    | some c =>
      if c = '_' then scan_digitsF real scanR f st.bump
      else
        match toDigit c scanR with
        | some _ =>
            let st1 :=
              if (toDigit c real).isNone then
                st.pushDiag st.pos st.next_pos
                  ("invalid digit for a base " ++ toString real ++ " literal")
                  .error
              else st
            let r := scan_digitsF real scanR f st1.bump
            (r.1 + 1, r.2)
        | none => (0, st)

/-- [[scan_digitsF]] with sufficient fuel. -/
def scan_digits (real scanR : Nat) (st : LexState) : Nat × LexState :=
  scan_digitsF real scanR (fuelOf st) st

/-- The body loop of `scan_single_quoted_string`. -/
def singleQuotedLoopF (start_with_quote : Nat) (msg : String) :
    Nat → Bool → LexState → Except LexFatal LexState
  | 0, _, _ => .error .outOfFuel
  | f + 1, first, st =>
    if st.ch_is '\'' then .ok st
    else if st.ch_is '\\' = true ∧
        (st.nextch_is '\'' = true ∨ st.nextch_is '\\' = true) then
      singleQuotedLoopF start_with_quote msg f false st.bump.bump
    else if st.is_eof = true ∨ (st.ch_is '/' = true ∧ ¬ first = true) ∨
        (st.ch_is '\n' = true ∧ ¬ st.nextch_is '\'' = true) then
      .error (.fatal start_with_quote st.pos msg)
    else
      singleQuotedLoopF start_with_quote msg f false st.bump

/-- [[singleQuotedLoopF]] with sufficient fuel. -/
def singleQuotedLoop (start_with_quote : Nat) (msg : String) (first : Bool)
    (st : LexState) : Except LexFatal LexState :=
  singleQuotedLoopF start_with_quote msg (fuelOf st) first st

/-- The body loop of `scan_double_quoted_string`. -/
def doubleQuotedLoopF (start_with_quote : Nat) (msg : String) :
    Nat → LexState → Except LexFatal LexState
  | 0, _ => .error .outOfFuel
  | f + 1, st =>
    if st.ch_is '"' then .ok st
    else if st.is_eof = true then
      .error (.fatal start_with_quote st.pos msg)
    else if st.ch_is '\\' = true ∧
        (st.nextch_is '\\' = true ∨ st.nextch_is '"' = true) then
      doubleQuotedLoopF start_with_quote msg f st.bump.bump
    else
      doubleQuotedLoopF start_with_quote msg f st.bump

/-- [[doubleQuotedLoopF]] with sufficient fuel. -/
def doubleQuotedLoop (start_with_quote : Nat) (msg : String)
    (st : LexState) : Except LexFatal LexState :=
  doubleQuotedLoopF start_with_quote msg (fuelOf st) st

/-- The inner `for _ in 0..hash_count` check of the raw-string loops:
bump over candidate closing hashes, reporting whether all of them were
`#`. -/
def checkFence : Nat → LexState → Bool × LexState
  | 0, st => (true, st)
  | k + 1, st =>
      let st1 := st.bump
      if st1.ch_is '#' then checkFence k st1 else (false, st1)

/-- The `#`-counting loop shared by the raw string and raw byte string
arms: counts hashes, fatal once a 65536th `#` is seen. -/
def rawHashLoopF (start_bpos : Nat) (msg : String) :
    Nat → LexState → Nat → Except LexFatal (Nat × LexState)
  | 0, _, _ => .error .outOfFuel
  | f + 1, st, hash_count =>
    if st.ch_is '#' then
      if hash_count = 65535 then .error (.fatal start_bpos st.next_pos msg)
      else rawHashLoopF start_bpos msg f st.bump (hash_count + 1)
    else .ok (hash_count, st)

/-- [[rawHashLoopF]] with sufficient fuel. -/
def rawHashLoop (start_bpos : Nat) (msg : String) (st : LexState)
    (hash_count : Nat) : Except LexFatal (Nat × LexState) :=
  rawHashLoopF start_bpos msg (fuelOf st) st hash_count

/-- The body loop of the raw string arm of `next_token_inner`: returns
the content end position, the `valid` flag and the state parked on the
last character of the closing fence. -/
def rawStrLoopF (start_bpos hash_count : Nat) :
    Nat → Bool → LexState → Except LexFatal (Nat × Bool × LexState)
  | 0, _, _ => .error .outOfFuel
  | f + 1, valid, st =>
    match st.ch with
    | none => .error (.fatal start_bpos start_bpos "unterminated raw string")
    | some c =>
      if c = '"' then
        match checkFence hash_count st with
        | (true, st1) => .ok (st.pos, valid, st1)
        | (false, st1) => rawStrLoopF start_bpos hash_count f valid st1
      else if c = '\r' ∧ ¬ st.nextch_is '\n' = true then
        rawStrLoopF start_bpos hash_count f false
          (st.pushDiag start_bpos st.pos
            "bare CR not allowed in raw string, use \\r instead" .error).bump
      else
        rawStrLoopF start_bpos hash_count f valid st.bump

/-- [[rawStrLoopF]] with sufficient fuel. -/
def rawStrLoop (start_bpos hash_count : Nat) (valid : Bool)
    (st : LexState) : Except LexFatal (Nat × Bool × LexState) :=
  rawStrLoopF start_bpos hash_count (fuelOf st) valid st

/-- The body loop of `scan_raw_byte_string`: no carriage-return check;
instead every examined character above `\x7F` is diagnosed.  The escaped
character that `err_span_char` appends to the message via the external
`push_escaped_char` helper is left out of the recorded message. -/
def rawByteStrLoopF (start_bpos hash_count : Nat) :
    Nat → LexState → Except LexFatal (Nat × LexState)
  | 0, _ => .error .outOfFuel
  | f + 1, st =>
    match st.ch with
    | none => .error (.fatal start_bpos start_bpos "unterminated raw string")
    | some c =>
      if c = '"' then
        match checkFence hash_count st with
        | (true, st1) => .ok (st.pos, st1)
        | (false, st1) => rawByteStrLoopF start_bpos hash_count f st1
      else
        let st1 :=
          if '\x7F' < c then
            st.pushDiag st.pos st.pos "raw byte string must be ASCII" .error
          else st
        rawByteStrLoopF start_bpos hash_count f st1.bump

/-- [[rawByteStrLoopF]] with sufficient fuel. -/
def rawByteStrLoop (start_bpos hash_count : Nat) (st : LexState) :
    Except LexFatal (Nat × LexState) :=
  rawByteStrLoopF start_bpos hash_count (fuelOf st) st

/-- `TokenAndSpan`, with the span flattened to its `(lo, hi)` byte
offsets (spans are produced through `mk_sp` with `override_span = None`,
so the effective span is the raw half-open range). -/
structure TokenAndSpan where
  tok : token.Tok
  lo : Nat
  hi : Nat
  deriving DecidableEq, Repr

/-- Phase two of `translate_crlf` (the inner `translate_crlf_`): every
`\r\n` collapses to `\n`; a bare `\r` is diagnosed and dropped from the
output.  `off` is the byte offset of the head of the list inside the
translated string. -/
def translateCrlfTail (start : Nat) (errmsg : String) :
    Nat → List Char → List Char × List Diag
  | _, [] => ([], [])
  | off, '\r' :: '\n' :: rest =>
      let r := translateCrlfTail start errmsg (off + 2) rest
      ('\n' :: r.1, r.2)
  | off, '\r' :: rest =>
      let r := translateCrlfTail start errmsg (off + 1) rest
      (r.1, ⟨start + off, start + off + 1, errmsg, .error⟩ :: r.2)
  | off, c :: rest =>
      let r := translateCrlfTail start errmsg (off + utf8Len c) rest
      (c :: r.1, r.2)

/-- Phase one of `translate_crlf`: scan up to the first `\r\n` (bare
`\r`s seen before it are diagnosed but kept in the output, and if no
`\r\n` ever occurs the string is returned unchanged); from the first
`\r\n` on, [[translateCrlfTail]] takes over. -/
def translateCrlfHead (start : Nat) (errmsg : String) :
    Nat → List Char → List Char × List Diag
  | _, [] => ([], [])
  | off, '\r' :: '\n' :: rest =>
      let r := translateCrlfTail start errmsg (off + 2) rest
      ('\n' :: r.1, r.2)
  | off, '\r' :: rest =>
      let r := translateCrlfHead start errmsg (off + 1) rest
      ('\r' :: r.1, ⟨start + off, start + off + 1, errmsg, .error⟩ :: r.2)
  | off, c :: rest =>
      let r := translateCrlfHead start errmsg (off + utf8Len c) rest
      (c :: r.1, r.2)

/-- `translate_crlf`: convert CRLF to LF in `s` (whose first character
sits at byte offset `start`), diagnosing every bare CR. -/
def translate_crlf (start : Nat) (s : List Char) (errmsg : String) :
    List Char × List Diag :=
  translateCrlfHead start errmsg 0 s

/-- `scan_block_comment`, entered after `/*` has been consumed (so with
`start_bpos = self.pos - 2`); classification is by
[[is_block_doc_comment]] applied to the whole comment text. -/
def scan_block_comment (st : LexState) :
    Except LexFatal (TokenAndSpan × LexState) :=
  let is_doc := st.ch_is '*' || st.ch_is '!'
  let start_bpos := st.pos - 2
  match blockCommentLoop is_doc start_bpos st 1 false with
  | .error e => .error e
  | .ok (st1, has_cr) =>
    let s := sliceB st1.src start_bpos st1.pos
    if is_block_doc_comment s then
      let p :=
        if has_cr then
          translate_crlf start_bpos s "bare CR not allowed in block doc-comment"
        else (s, [])
      let st2 := { st1 with errs := st1.errs ++ p.2 }
      .ok (⟨.DocComment p.1, start_bpos, st1.pos⟩, st2)
    else
      .ok (⟨.Comment, start_bpos, st1.pos⟩, st1)

/-- The `c.is_whitespace` precondition check at the head of
`scan_comment`.  `char::is_whitespace` uses the external Unicode
`White_Space` table; it is modelled by `Pattern_White_Space`, which
agrees with it on `/` and `#`, the only characters reaching the check
from `scan_whitespace_or_comment`. -/
def whitespace_precondition_check (st : LexState) : LexState :=
  match st.ch with
  | some c =>
      if Pattern_White_Space c then
        st.pushDiag st.pos st.pos
          "called consume_any_line_comment, but there was whitespace"
          .error
      else st
  | none => st

/-- `scan_comment`: line comments (with their doc-comment flag), block
comments, and the shebang form; returns `none` when the current
character does not start any comment. -/
def scan_comment (st : LexState) :
    Except LexFatal (Option TokenAndSpan × LexState) :=
  let st := whitespace_precondition_check st
  if st.ch_is '/' then
    match st.nextch with
    | some '/' =>
        let st1 := st.bump.bump
        let doc_comment :=
          (st1.ch_is '/' && ! st1.nextch_is '/') || st1.ch_is '!'
        let start_bpos := st1.pos - 2
        let st2 := lineCommentLoop doc_comment st1
        let tok : token.Tok :=
          if doc_comment then .DocComment (st2.name_from start_bpos)
          else .Comment
        .ok (some ⟨tok, start_bpos, st2.pos⟩, st2)
    | some '*' =>
        match scan_block_comment st.bump.bump with
        | .error e => .error e
        | .ok (tas, st1) => .ok (some tas, st1)
    | _ => .ok (none, st)
  else if st.ch_is '#' then
    if st.nextch_is '!' then
      if st.nextnextch_is '[' then .ok (none, st)
      else if st.pos = 0 then
        let start := st.pos
        let st1 := eatToEol st
        .ok (some ⟨.Shebang (st1.name_from start), start, st1.pos⟩, st1)
      else .ok (none, st)
    else .ok (none, st)
  else .ok (none, st)

/-- `scan_whitespace_or_comment`. -/
def scan_whitespace_or_comment (st : LexState) :
    Except LexFatal (Option TokenAndSpan × LexState) :=
  let c := st.ch.getD '\x00'
  if c = '/' ∨ c = '#' then scan_comment st
  else if is_pattern_whitespace (some c) then
    let start_bpos := st.pos
    let st1 := eatWhitespace st
    .ok (some ⟨.Whitespace, start_bpos, st1.pos⟩, st1)
  else .ok (none, st)

/-- `scan_optional_raw_name`: an optional identifier-shaped suffix; the
suffix `_` alone is warned about and dropped. -/
def scan_optional_raw_name (st : LexState) : Option Symbol × LexState :=
  if ¬ ident_start st.ch = true then (none, st)
  else
    let start := st.pos
    let st1 := eatIdentContinue st.bump
    let s := st1.name_from start
    if s = ['_'] then
      (none, st1.pushDiag start st1.pos
        "underscore literal suffix is not allowed" .warn)
    else (some s, st1)

/-- `scan_float_exponent`: on a missing exponent digit the code builds a
fatal-severity diagnostic with `struct_span_fatal`, optionally consumes
a confusable substitution plus digits, and then only `emit()`s the
diagnostic — there is no `raise()`, so scanning continues. -/
def scan_float_exponent (st : LexState) : LexState :=
  if st.ch_is 'e' || st.ch_is 'E' then
    let st1 := st.bump
    let st2 := if st1.ch_is '-' || st1.ch_is '+' then st1.bump else st1
    let r := scan_digits 10 10 st2
    if r.1 = 0 then
      let st3 := r.2
      match st3.ch with
      | some c =>
        if check_for_substitution c then
          let r2 := scan_digits 10 10 st3.bump
          r2.2.pushDiag st3.pos st3.next_pos
            "expected at least one digit in exponent" .fatalLevel
        else
          st3.pushDiag st3.pos st3.next_pos
            "expected at least one digit in exponent" .fatalLevel
      | none =>
          st3.pushDiag st3.pos st3.next_pos
            "expected at least one digit in exponent" .fatalLevel
    else r.2
  else st

/-- `check_float_base`. -/
def check_float_base (st : LexState) (start_bpos last_bpos base : Nat) :
    LexState :=
  match base with
  | 16 => st.pushDiag start_bpos last_bpos
      "hexadecimal float literal is not supported" .error
  | 8 => st.pushDiag start_bpos last_bpos
      "octal float literal is not supported" .error
  | 2 => st.pushDiag start_bpos last_bpos
      "binary float literal is not supported" .error
  | _ => st

/-- Result of the integer-part portion of `scan_number` (lines up to the
`num_digits` binding): either the early `return token::Integer` taken
when `0` is followed by nothing numeric, or the chosen base together
with the digit count. -/
inductive IntPartResult where
  | justZero (st : LexState)
  | scanned (base : Nat) (num_digits : Nat) (st : LexState)
  deriving DecidableEq, Repr

/-- The integer-part portion of `scan_number`: consume the leading digit,
the optional `0b`/`0o`/`0x` prefix, and the run of digits/underscores. -/
def scanIntPart (c : Char) (st : LexState) : IntPartResult :=
  let st1 := st.bump
  if c = '0' then
    let d := st1.ch.getD '\x00'
    if d = 'b' then
      let r := scan_digits 2 10 st1.bump
      .scanned 2 r.1 r.2
    else if d = 'o' then
      let r := scan_digits 8 10 st1.bump
      .scanned 8 r.1 r.2
    else if d = 'x' then
      let r := scan_digits 16 16 st1.bump
      .scanned 16 r.1 r.2
    else if ('0' ≤ d ∧ d ≤ '9') ∨ d = '_' ∨ d = '.' ∨ d = 'e' ∨ d = 'E' then
      let r := scan_digits 10 10 st1
      .scanned 10 (r.1 + 1) r.2
    else
      .justZero st1
  else if (toDigit c 10).isSome then
    let r := scan_digits 10 10 st1
    .scanned 10 (r.1 + 1) r.2
  else
    .scanned 10 0 st1

/-- `scan_number`, entered with `c` the current decimal digit. -/
def scan_number (c : Char) (st : LexState) : token.Lit × LexState :=
  let start_bpos := st.pos
  match scanIntPart c st with
  | .justZero st1 => (.integer (st1.name_from start_bpos), st1)
  | .scanned base num_digits st1 =>
    if num_digits = 0 then
      (.integer ['0'],
       st1.pushDiag start_bpos st1.pos "no valid digits found for number"
         .error)
    else if st1.ch_is '.' ∧ ¬ st1.nextch_is '.' = true ∧
        ¬ ident_start st1.nextch = true then
      let st2 := st1.bump
      let st3 :=
        if (toDigit (st2.ch.getD '\x00') 10).isSome then
          scan_float_exponent (scan_digits 10 10 st2).2
        else st2
      let st4 := check_float_base st3 start_bpos st3.pos base
      (.float (st4.name_from start_bpos), st4)
    else if st1.ch_is 'e' || st1.ch_is 'E' then
      let st2 := scan_float_exponent st1
      let st3 := check_float_base st2 start_bpos st2.pos base
      (.float (st3.name_from start_bpos), st3)
    else
      (.integer (st1.name_from start_bpos), st1)

/-- `scan_single_quoted_string`, entered after the opening quote has been
consumed; handles the special recovery form where three quotes in a row
are read as a single-quote character. -/
def scan_single_quoted_string (start_with_quote : Nat) (msg : String)
    (st : LexState) : Except LexFatal (Symbol × LexState) :=
  let start := st.pos
  let body : Except LexFatal LexState :=
    if st.ch_is '\'' ∧ st.nextch_is '\'' then .ok st.bump
    else singleQuotedLoop start_with_quote msg true st
  match body with
  | .error e => .error e
  | .ok st1 => .ok (st1.name_from start, st1.bump)

/-- `scan_double_quoted_string`, entered on the opening quote. -/
def scan_double_quoted_string (msg : String) (st : LexState) :
    Except LexFatal (Symbol × LexState) :=
  let start_with_quote := st.pos
  let st1 := st.bump
  let start := st1.pos
  match doubleQuotedLoop start_with_quote msg st1 with
  | .error e => .error e
  | .ok st2 => .ok (st2.name_from start, st2.bump)

/-- Modelled from the spec: `validate_char_escape` delegates to the
external escape-sequence validator (`parse::unescape`, an out-of-scope
collaborator per §1); it inspects an already-scanned slice, so it moves
no cursor state, and its diagnostics are not modelled. -/
def validate_char_escape (st : LexState) (_start_with_quote : Nat) :
    LexState := st

/-- Modelled from the spec: `validate_byte_escape`, exactly as
[[validate_char_escape]]. -/
def validate_byte_escape (st : LexState) (_start_with_quote : Nat) :
    LexState := st

/-- Modelled from the spec: `validate_str_escape`, exactly as
[[validate_char_escape]]. -/
def validate_str_escape (st : LexState) (_start_with_quote : Nat) :
    LexState := st

/-- Modelled from the spec: `validate_byte_str_escape`, exactly as
[[validate_char_escape]]. -/
def validate_byte_str_escape (st : LexState) (_start_with_quote : Nat) :
    LexState := st

/-- `scan_raw_byte_string`, entered on the `r` of `br`. -/
def scan_raw_byte_string (st : LexState) :
    Except LexFatal (token.Lit × LexState) :=
  let start_bpos := st.pos
  let st1 := st.bump
  match rawHashLoop start_bpos
      "too many `#` symbols: raw byte strings may be delimited by up to 65535 `#` symbols"
      st1 0 with
  | .error e => .error e
  | .ok (hash_count, st2) =>
    if st2.is_eof then
      .error (.fatal start_bpos start_bpos "unterminated raw string")
    else if ¬ st2.ch_is '"' = true then
      .error (.fatal start_bpos st2.pos
        "found invalid character; only `#` is allowed in raw string delimitation")
    else
      let st3 := st2.bump
      let content_start := st3.pos
      match rawByteStrLoop start_bpos hash_count st3 with
      | .error e => .error e
      | .ok (content_end, st4) =>
        let st5 := st4.bump
        .ok (.byteStrRaw (st5.name_from_to content_start content_end)
          hash_count, st5)

/-- The `'r'` raw-string arm of `next_token_inner`, entered on the `r`;
returns the literal (the suffix is scanned by the caller). -/
def scan_raw_string (st : LexState) :
    Except LexFatal (token.Lit × LexState) :=
  let start_bpos := st.pos
  let st1 := st.bump
  match rawHashLoop start_bpos
      "too many `#` symbols: raw strings may be delimited by up to 65535 `#` symbols"
      st1 0 with
  | .error e => .error e
  | .ok (hash_count, st2) =>
    if st2.is_eof then
      .error (.fatal start_bpos start_bpos "unterminated raw string")
    else if ¬ st2.ch_is '"' = true then
      .error (.fatal start_bpos st2.pos
        "found invalid character; only `#` is allowed in raw string delimitation")
    else
      let st3 := st2.bump
      let content_start := st3.pos
      match rawStrLoop start_bpos hash_count true st3 with
      | .error e => .error e
      | .ok (content_end, valid, st4) =>
        let st5 := st4.bump
        let id : Symbol :=
          if valid then st5.name_from_to content_start content_end
          else ['?', '?']
        .ok (.strRaw id hash_count, st5)

/-- `binop`: one operator character, optionally followed by `=`. -/
def binop (op : token.BinOpToken) (st : LexState) :
    token.Tok × LexState :=
  let st1 := st.bump
  if st1.ch_is '=' then (.BinOpEq op, st1.bump) else (.BinOp op, st1)

/-- Modelled from the spec: `char::is_numeric` checks the external
Unicode number-category tables; the properties proved here exercise it
on ASCII only, where it coincides with the decimal digits. -/
def char_is_numeric (c : Char) : Bool := decide ('0' ≤ c ∧ c ≤ '9')

/-- `next_token_inner`: the root dispatcher.  The recording of raw
identifier spans into the shared `sess.raw_identifier_spans` list (an
external sink) is not modelled. -/
def next_token_inner (st : LexState) :
    Except LexFatal (token.Tok × LexState) :=
  match st.ch with
  | none => .error .unreachableState
  | some c =>
    let pr : Bool × Bool :=
      if c = 'r' ∧ st.nextch = some '#' ∧ ident_start st.nextnextch then
        (true, true)
      else if (c = 'r' ∧ (st.nextch = some '"' ∨ st.nextch = some '#')) ∨
          (c = 'b' ∧ (st.nextch = some '"' ∨ st.nextch = some '\'')) ∨
          (c = 'b' ∧ st.nextch = some 'r' ∧
            (st.nextnextch = some '"' ∨ st.nextnextch = some '#')) then
        (false, false)
      else (true, false)
    if ident_start (some c) ∧ pr.1 then
      let is_raw_ident := pr.2
      let raw_start := st.pos
      let stA := if is_raw_ident then st.bump.bump else st
      let start := stA.pos
      let stB := eatIdentContinue stA.bump
      let s := stB.name_from start
      let stC :=
        if is_raw_ident then
          if ¬ can_be_raw s then
            stB.pushDiag raw_start stB.pos "cannot be a raw identifier"
              .error
          else stB
        else stB
      .ok (.Ident s is_raw_ident, stC)
    else if is_dec_digit (some c) then
      let r := scan_number c st
      let r2 := scan_optional_raw_name r.2
      .ok (.Literal r.1 r2.1, r2.2)
    else
      match c with
      | ';' => .ok (.Semi, st.bump)
      | ',' => .ok (.Comma, st.bump)
      | '.' =>
        let st1 := st.bump
        if st1.ch_is '.' then
          let st2 := st1.bump
          if st2.ch_is '.' then .ok (.DotDotDot, st2.bump)
          else if st2.ch_is '=' then .ok (.DotDotEq, st2.bump)
          else .ok (.DotDot, st2)
        else .ok (.Dot, st1)
      | '(' => .ok (.OpenDelim .Paren, st.bump)
      | ')' => .ok (.CloseDelim .Paren, st.bump)
      | '{' => .ok (.OpenDelim .Brace, st.bump)
      | '}' => .ok (.CloseDelim .Brace, st.bump)
      | '[' => .ok (.OpenDelim .Bracket, st.bump)
      | ']' => .ok (.CloseDelim .Bracket, st.bump)
      | '@' => .ok (.At, st.bump)
      | '#' => .ok (.Pound, st.bump)
      | '~' => .ok (.Tilde, st.bump)
      | '?' => .ok (.Question, st.bump)
      | ':' =>
        let st1 := st.bump
        if st1.ch_is ':' then .ok (.ModSep, st1.bump)
        else .ok (.Colon, st1)
      | '$' => .ok (.Dollar, st.bump)
      | '=' =>
        let st1 := st.bump
        if st1.ch_is '=' then .ok (.EqEq, st1.bump)
        else if st1.ch_is '>' then .ok (.FatArrow, st1.bump)
        else .ok (.Eq, st1)
      | '!' =>
        let st1 := st.bump
        if st1.ch_is '=' then .ok (.Ne, st1.bump)
        else .ok (.Not, st1)
      | '<' =>
        let st1 := st.bump
        match st1.ch.getD '\x00' with
        | '=' => .ok (.Le, st1.bump)
        | '<' => .ok (binop .Shl st1)
        | '-' => .ok (.LArrow, st1.bump)
        | _ => .ok (.Lt, st1)
      | '>' =>
        let st1 := st.bump
        match st1.ch.getD '\x00' with
        | '=' => .ok (.Ge, st1.bump)
        | '>' => .ok (binop .Shr st1)
        | _ => .ok (.Gt, st1)
      | '\'' =>
        let start_with_quote := st.pos
        let st1 := st.bump
        let start := st1.pos
        let starts_with_number := char_is_numeric (st1.ch.getD '\x00')
        if (ident_start st1.ch || starts_with_number) ∧
            ¬ st1.nextch_is '\'' = true then
          let st2 := eatIdentContinue st1.bump
          if st2.ch_is '\'' then
            let id := st2.name_from start
            let st3 := st2.bump
            let st4 := validate_char_escape st3 start_with_quote
            .ok (.Literal (.charLit id) none, st4)
          else
            let lifetime_name := st2.name_from start_with_quote
            let st3 :=
              if starts_with_number then
                st2.pushDiag start_with_quote st2.pos
                  "lifetimes cannot start with a number" .error
              else st2
            .ok (.Lifetime lifetime_name, st3)
        else
          match scan_single_quoted_string start_with_quote
              "unterminated character literal" st1 with
          | .error e => .error e
          | .ok (id, st2) =>
            let st3 := validate_char_escape st2 start_with_quote
            let r := scan_optional_raw_name st3
            .ok (.Literal (.charLit id) r.1, r.2)
      | 'b' =>
        let st1 := st.bump
        let lit : Except LexFatal (token.Lit × LexState) :=
          match st1.ch with
          | some '\'' =>
            let start_with_quote := st1.pos
            let st2 := st1.bump
            match scan_single_quoted_string start_with_quote
                "unterminated byte constant" st2 with
            | .error e => .error e
            | .ok (id, st3) =>
                .ok (.byteLit id, validate_byte_escape st3 start_with_quote)
          | some '"' =>
            let start_with_quote := st1.pos
            match scan_double_quoted_string
                "unterminated double quote byte string" st1 with
            | .error e => .error e
            | .ok (id, st3) =>
                .ok (.byteStr id, validate_byte_str_escape st3 start_with_quote)
          | some 'r' => scan_raw_byte_string st1
          | _ => .error .unreachableState
        match lit with
        | .error e => .error e
        | .ok (l, st2) =>
          let r := scan_optional_raw_name st2
          .ok (.Literal l r.1, r.2)
      | '"' =>
        let start_with_quote := st.pos
        match scan_double_quoted_string "unterminated double quote string"
            st with
        | .error e => .error e
        | .ok (id, st1) =>
          let st2 := validate_str_escape st1 start_with_quote
          let r := scan_optional_raw_name st2
          .ok (.Literal (.strLit id) r.1, r.2)
      | 'r' =>
        match scan_raw_string st with
        | .error e => .error e
        | .ok (l, st1) =>
          let r := scan_optional_raw_name st1
          .ok (.Literal l r.1, r.2)
      | '-' =>
        if st.nextch_is '>' then .ok (.RArrow, st.bump.bump)
        else .ok (binop .Minus st)
      | '&' =>
        if st.nextch_is '&' then .ok (.AndAnd, st.bump.bump)
        else .ok (binop .And st)
      | '|' =>
        match st.nextch with
        | some '|' => .ok (.OrOr, st.bump.bump)
        | _ => .ok (binop .Or st)
      | '+' => .ok (binop .Plus st)
      | '*' => .ok (binop .Star st)
      | '/' => .ok (binop .Slash st)
      | '^' => .ok (binop .Caret st)
      | '%' => .ok (binop .Percent st)
      | _ => .error (.unknownTokenStart st.pos st.next_pos c)

/-- `advance_token`: trivia first, then `Eof` (spanning
`(end_pos, end_pos)`, with `end_pos = byteLen src` since
`start_pos = 0`), otherwise one token from [[next_token_inner]] spanning
from the entry position to the exit position. -/
def advance_token (st : LexState) :
    Except LexFatal (TokenAndSpan × LexState) :=
  match scan_whitespace_or_comment st with
  | .error e => .error e
  | .ok (some comment, st1) => .ok (comment, st1)
  | .ok (none, st1) =>
    if st1.is_eof then
      .ok (⟨.Eof, byteLen st1.src, byteLen st1.src⟩, st1)
    else
      let start_bytepos := st1.pos
      match next_token_inner st1 with
      | .error e => .error e
      | .ok (tok, st2) => .ok (⟨tok, start_bytepos, st2.pos⟩, st2)

/-- The peek-buffered stream: the cursor state plus the cached
`peek_tok` / `peek_span`.  (`peek_span_src_raw` always equals
`peek_span` under `override_span = None` and is not duplicated; the
`fatal_errs` buffer is subsumed by the `Except` error value, which makes
the `assert!(self.fatal_errs.is_empty())` of `try_next_token` hold by
construction.) -/
structure Reader where
  st : LexState
  peek_tok : token.Tok
  peek_lo : Nat
  peek_hi : Nat
  deriving DecidableEq, Repr

/-- `try_next_token`: emit the cached token, then refill the cache. -/
def try_next_token (r : Reader) : Except LexFatal (TokenAndSpan × Reader) :=
  let ret : TokenAndSpan := ⟨r.peek_tok, r.peek_lo, r.peek_hi⟩
  match advance_token r.st with
  | .error e => .error e
  | .ok (p, st1) => .ok (ret, ⟨st1, p.tok, p.lo, p.hi⟩)

/-- `new_raw_internal`: the dummy pre-priming state (`ch` holds the
dummy `'\n'`, both offsets at `start_pos = 0`). -/
def new_raw_internal (src : List Char) : LexState :=
  ⟨src, 0, 0, some '\n', []⟩

/-- `new_raw`: construction plus the priming `bump`. -/
def new_raw (src : List Char) : LexState :=
  (new_raw_internal src).bump

/-- `new_or_buffered_errs`: construct the reader and fill the peek cache
with the first token. -/
def new_or_buffered_errs (src : List Char) : Except LexFatal Reader :=
  match advance_token (new_raw src) with
  | .error e => .error e
  | .ok (p, st1) => .ok ⟨st1, p.tok, p.lo, p.hi⟩

/-- Drive `next_token` to completion, collecting every emitted token
before `Eof`; `none` means the fuel ran out before completion. -/
def lexAll : Nat → Reader → Option (Except LexFatal (List TokenAndSpan))
  | 0, _ => none
  | fuel + 1, r =>
    match try_next_token r with
    | .error e => some (.error e)
    | .ok (tas, r1) =>
      if tas.tok = .Eof then some (.ok [])
      else
        match lexAll fuel r1 with
        | none => none
        | some (.error e) => some (.error e)
        | some (.ok rest) => some (.ok (tas :: rest))

/-- The cursor invariant stated by the specification (§3 "Cursor
state"): `pos ≤ next_pos ≤ end_offset`; when `current_char = Some c`,
`next_pos − pos = utf8_len c`; when `None`, `pos = end_offset`. -/
def cursor_invariant (st : LexState) : Bool :=
  decide (st.pos ≤ st.next_pos) &&
  decide (st.next_pos ≤ byteLen st.src) &&
  (match st.ch with
   | some c => decide (st.next_pos - st.pos = utf8Len c)
   | none => decide (st.pos = byteLen st.src))

/-- The cursor states of a lexer over `src`: the state immediately after
construction (`new_raw`, which includes the priming `bump`) and
everything reachable from it through `bump`. -/
inductive Reachable (src : List Char) : LexState → Prop where
  | init : Reachable src (new_raw src)
  | step {st : LexState} : Reachable src st → Reachable src st.bump

/-- Specification-side closing-fence search for raw strings, following
§4.7: "The body runs until the exact sequence `\"` followed by N hashes
is seen."  Returns the body before the first such fence together with
the input left after the fence, or `none` when no fence occurs. -/
def specFindClose (N : Nat) : List Char → Option (List Char × List Char)
  | [] => none
  | c :: cs =>
    if c = '"' ∧ cs.take N = List.replicate N '#' then some ([], cs.drop N)
    else (specFindClose N cs).map (fun p => (c :: p.1, p.2))

/-- A raw-string body contains a bare CR when some `\r` in it is not
immediately followed by `\n`; a final `\r` is bare because the next
character in the stream is the `"` of the closing fence. -/
def hasBareCR : List Char → Bool
  | [] => false
  | ['\r'] => true
  | '\r' :: c :: rest => (decide (c ≠ '\n')) || hasBareCR (c :: rest)
  | _ :: rest => hasBareCR rest

/-- Specification-side float condition, following §4.4: after the
integer part, the literal is a float exactly when a `.` follows that is
neither the start of `..` nor immediately followed by an ident start, or
when an exponent `e`/`E` follows. -/
def specFloatCond (st : LexState) : Bool :=
  (st.ch_is '.' && ! st.nextch_is '.' && ! ident_start st.nextch) ||
  st.ch_is 'e' || st.ch_is 'E'

/-- The state left behind by the integer part of `scan_number`. -/
def intPartState : IntPartResult → LexState
  | .justZero st => st
  | .scanned _ _ st => st

/-- The digit count of the integer part, when `scan_number` did not take
the early `just a 0` return. -/
def intPartDigits : IntPartResult → Option Nat
  | .justZero _ => none
  | .scanned _ n _ => some n

/-- Whether a literal payload is a float. -/
def isFloatLit : token.Lit → Bool
  | .float _ => true
  | _ => false

/-- Whether a token is a doc comment. -/
def isDocCommentTok : token.Tok → Bool
  | .DocComment _ => true
  | _ => false

/-- The cursor well-formedness invariant: `pos` is the byte length of a
prefix of the source, the cache holds the first unread character, and
`next_pos` points just past it (§3 "Cursor state"). -/
def wf (st : LexState) : Prop :=
  ∃ pre post, st.src = pre ++ post ∧ byteLen pre = st.pos ∧
    (match post with
     | [] => st.ch = none ∧ st.next_pos = st.pos
     | c :: _ => st.ch = some c ∧ st.next_pos = st.pos + utf8Len c)

/-- Byte offset `n` is a character boundary of `src`. -/
def Aligned (src : List Char) (n : Nat) : Prop :=
  ∃ pre post, src = pre ++ post ∧ byteLen pre = n

/-- The relation every scanning step respects: the new state is well
formed, reads the same source, and has not moved backwards. -/
def StOk (st st1 : LexState) : Prop :=
  wf st1 ∧ st1.src = st.src ∧ st.pos ≤ st1.pos

/-- The `(lo, hi)` spans of a token list, in emission order. -/
def spansOf (l : List TokenAndSpan) : List (Nat × Nat) :=
  l.map (fun t => (t.lo, t.hi))

/-- The spans tile the half-open byte range `[lo, hi)`: each starts
where the previous one ended (no gaps, no overlaps), the first starts
at `lo` and the last ends at `hi`. -/
def spanChain : Nat → Nat → List (Nat × Nat) → Prop
  | lo, hi, [] => lo = hi
  | lo, hi, (a, b) :: rest => a = lo ∧ a ≤ b ∧ spanChain b hi rest

/-- The concatenation of the source slices under the token spans. -/
def slicesJoin (src : List Char) (l : List TokenAndSpan) : List Char :=
  (l.map (fun t => sliceB src t.lo t.hi)).flatten

/-- The invariant of the peek-buffered reader between `try_next_token`
calls: the cursor is well formed and parked at the cached span's end,
the cached span is ordered and starts at a character boundary, and a
cached `Eof` starts at the end of the source. -/
def ReaderInv (r : Reader) : Prop :=
  wf r.st ∧ r.peek_lo ≤ r.peek_hi ∧ r.peek_hi = r.st.pos ∧
  Aligned r.st.src r.peek_lo ∧
  (r.peek_tok = token.Tok.Eof → r.peek_lo = byteLen r.st.src)

theorem byteLen_append (a b : List Char) :
    byteLen (a ++ b) = byteLen a + byteLen b := by
  induction a with
  | nil => simp [byteLen]
  | cons c l ih => simp [byteLen, ih]; omega

theorem byteLen_eq_zero {l : List Char} : byteLen l = 0 ↔ l = [] := by
  cases l with
  | nil => simp [byteLen]
  | cons c cs =>
    have := utf8Len_pos c
    simp [byteLen]
    omega

theorem dropB_append (l1 l2 : List Char) :
    dropB (l1 ++ l2) (byteLen l1) = l2 := by
  induction l1 with
  | nil => simpa [byteLen] using dropB_zero l2
  | cons c l ih =>
    have hu := utf8Len_pos c
    obtain ⟨k, hk⟩ : ∃ k, byteLen (c :: l) = k + 1 :=
      ⟨byteLen (c :: l) - 1, by simp [byteLen]; omega⟩
    rw [List.cons_append, hk, dropB_cons_succ]
    have : k + 1 - utf8Len c = byteLen l := by simp [byteLen] at hk; omega
    rw [this, ih]

theorem takeB_append (l1 l2 : List Char) :
    takeB (l1 ++ l2) (byteLen l1) = l1 := by
  induction l1 with
  | nil => simpa [byteLen] using takeB_zero l2
  | cons c l ih =>
    have hu := utf8Len_pos c
    obtain ⟨k, hk⟩ : ∃ k, byteLen (c :: l) = k + 1 :=
      ⟨byteLen (c :: l) - 1, by simp [byteLen]; omega⟩
    rw [List.cons_append, hk, takeB_cons_succ]
    have : k + 1 - utf8Len c = byteLen l := by simp [byteLen] at hk; omega
    rw [this, ih]

theorem takeB_byteLen (l : List Char) : takeB l (byteLen l) = l := by
  simpa using takeB_append l []

theorem dropB_byteLen (l : List Char) : dropB l (byteLen l) = [] := by
  simpa using dropB_append l []

theorem wf_chRest {st : LexState} (h : wf st) :
    ∃ pre, st.src = pre ++ chRest st ∧ byteLen pre = st.pos := by
  obtain ⟨pre, post, hsrc, hpre, _⟩ := h
  refine ⟨pre, ?_, hpre⟩
  rw [chRest, hsrc, ← hpre, dropB_append]

theorem wf_ch {st : LexState} (h : wf st) : st.ch = (chRest st).head? := by
  obtain ⟨pre, post, hsrc, hpre, hm⟩ := h
  have hd : chRest st = post := by
    rw [chRest, hsrc, ← hpre, dropB_append]
  rw [hd]
  match post, hm with
  | [], ⟨h1, _⟩ => simpa using h1
  | c :: t, ⟨h1, _⟩ => simpa using h1

theorem wf_next_pos {st : LexState} (h : wf st) :
    st.next_pos = st.pos +
      (match chRest st with | [] => 0 | c :: _ => utf8Len c) := by
  obtain ⟨pre, post, hsrc, hpre, hm⟩ := h
  have hd : chRest st = post := by
    rw [chRest, hsrc, ← hpre, dropB_append]
  rw [hd]
  match post, hm with
  | [], ⟨_, h2⟩ => simpa using h2
  | c :: t, ⟨_, h2⟩ => simpa using h2

theorem wf_tail {st : LexState} (h : wf st) :
    dropB st.src st.next_pos = (chRest st).tail := by
  obtain ⟨pre, post, hsrc, hpre, hm⟩ := h
  have hd : chRest st = post := by
    rw [chRest, hsrc, ← hpre, dropB_append]
  rw [hd]
  match post, hm with
  | [], ⟨_, h2⟩ =>
    rw [h2, ← hpre, hsrc]
    simpa using dropB_append pre []
  | c :: t, ⟨_, h2⟩ =>
    rw [h2, ← hpre, hsrc]
    have : byteLen pre + utf8Len c = byteLen (pre ++ [c]) := by
      rw [byteLen_append]; simp [byteLen]
    rw [this, show pre ++ c :: t = (pre ++ [c]) ++ t by simp, dropB_append]
    rfl

theorem wf_pos_le {st : LexState} (h : wf st) : st.pos ≤ byteLen st.src := by
  obtain ⟨pre, hsrc, hpre⟩ := wf_chRest h
  rw [hsrc, byteLen_append, ← hpre]
  omega

theorem wf_pos_add {st : LexState} (h : wf st) :
    st.pos + byteLen (chRest st) = byteLen st.src := by
  obtain ⟨pre, hsrc, hpre⟩ := wf_chRest h
  rw [hsrc, byteLen_append, ← hpre]

theorem wf_eof_iff {st : LexState} (h : wf st) :
    st.ch = none ↔ st.pos = byteLen st.src := by
  rw [wf_ch h]
  have := wf_pos_add h
  cases hcr : chRest st with
  | nil => rw [hcr] at this; simp [byteLen] at this; simp [this]
  | cons c t =>
    have hu := utf8Len_pos c
    rw [hcr] at this
    simp [byteLen] at this
    simp
    omega

/-- `bump` moves the position to `next_pos` in both of its branches. -/
theorem bump_pos (st : LexState) : st.bump.pos = st.next_pos := by
  unfold LexState.bump
  cases (dropB st.src st.next_pos).head? <;> rfl

/-- `bump` preserves the cursor invariant. -/
theorem wf_bump {st : LexState} (h : wf st) : wf st.bump := by
  obtain ⟨pre, post, hsrc, hpre, hm⟩ := h
  have hd : chRest st = post := by
    rw [chRest, hsrc, ← hpre, dropB_append]
  have htail : dropB st.src st.next_pos = post.tail := by
    rw [wf_tail ⟨pre, post, hsrc, hpre, hm⟩, hd]
  unfold LexState.bump
  rw [htail]
  rcases post with _ | ⟨c, t⟩
  · obtain ⟨h1, h2⟩ := hm
    simp only [List.tail_nil, List.head?_nil]
    exact ⟨pre, [], hsrc, by rw [hpre, h2], rfl, rfl⟩
  · obtain ⟨h1, h2⟩ := hm
    have hlen2 : byteLen (pre ++ [c]) = st.next_pos := by
      rw [byteLen_append, hpre, h2]; simp [byteLen]
    rcases t with _ | ⟨c2, t2⟩
    · simp only [List.tail_cons, List.head?_nil]
      exact ⟨pre ++ [c], [], by simpa using hsrc, hlen2, rfl, rfl⟩
    · simp only [List.tail_cons, List.head?_cons]
      exact ⟨pre ++ [c], c2 :: t2, by simpa using hsrc, hlen2, rfl, by simp⟩

/-- `bump` under the invariant drops one character from the unread
tail. -/
theorem chRest_bump {st : LexState} (h : wf st) :
    chRest st.bump = (chRest st).tail := by
  rw [chRest, bump_src, bump_pos]
  exact wf_tail h

theorem wf_pushDiag {st : LexState} (h : wf st) (lo hi : Nat) (m : String)
    (lv : Level) : wf (st.pushDiag lo hi m lv) := h

theorem chRest_pushDiag (st : LexState) (lo hi : Nat) (m : String)
    (lv : Level) : chRest (st.pushDiag lo hi m lv) = chRest st := rfl

/-- The freshly constructed (and primed) cursor is well formed. -/
theorem wf_new_raw (src : List Char) : wf (new_raw src) := by
  unfold new_raw new_raw_internal LexState.bump
  simp only
  rw [dropB_zero]
  cases src with
  | nil => exact ⟨[], [], rfl, rfl, rfl, rfl⟩
  | cons c t => exact ⟨[], c :: t, rfl, rfl, rfl, rfl⟩

theorem wf_of_reachable {src : List Char} {st : LexState}
    (h : Reachable src st) : wf st := by
  induction h with
  | init => exact wf_new_raw src
  | step _ ih => exact wf_bump ih

theorem cursor_invariant_of_wf {st : LexState} (h : wf st) :
    cursor_invariant st = true := by
  obtain ⟨pre, post, hsrc, hpre, hm⟩ := h
  have hadd : st.pos + byteLen post = byteLen st.src := by
    rw [hsrc, byteLen_append, hpre]
  rcases post with _ | ⟨c, t⟩
  · obtain ⟨h1, h2⟩ := hm
    simp [byteLen] at hadd
    simp [cursor_invariant, h1, h2, hadd]
  · obtain ⟨h1, h2⟩ := hm
    have hu := utf8Len_pos c
    simp [byteLen] at hadd
    simp [cursor_invariant, h1, h2]
    omega

/-- C8: in every reachable cursor state — the state immediately after
construction and every state reached through `bump` — the invariant
`pos ≤ next_pos ≤ end_offset` holds, with `next_pos − pos` the UTF-8
length of the current character when one exists, and `pos = end_offset`
at EOF. -/
theorem c8_cursor_invariant_reachable {src : List Char} {st : LexState}
    (h : Reachable src st) : cursor_invariant st = true :=
  cursor_invariant_of_wf (wf_of_reachable h)

theorem c8_cursor_invariant_witness :
    cursor_invariant ((new_raw "ab".data).bump) = true :=
  c8_cursor_invariant_reachable (Reachable.step Reachable.init)

/-- At EOF, `advance_token` finds no trivia, takes the `is_eof` branch,
and refills the cache with `Eof` spanning `(end_pos, end_pos)` without
touching the cursor. -/
theorem advance_token_at_eof {st : LexState} (hch : st.ch = none) :
    advance_token st =
      .ok (⟨.Eof, byteLen st.src, byteLen st.src⟩, st) := by
  unfold advance_token scan_whitespace_or_comment
  rw [hch]
  simp [is_pattern_whitespace, Pattern_White_Space, LexState.is_eof, hch]

/-- C9: once a call has returned `Eof` — so the cursor is at EOF and the
peek cache holds `Eof` with the end-of-file span — every further
`try_next_token` call returns `Eof` with that same span and leaves the
whole reader (cursor position and diagnostics included) unchanged. -/
theorem c9_eof_idempotent (r : Reader) (hwf : wf r.st)
    (h1 : r.st.ch = none) (h2 : r.peek_tok = .Eof)
    (h3 : r.peek_lo = byteLen r.st.src) (h4 : r.peek_hi = byteLen r.st.src) :
    try_next_token r =
      .ok (⟨.Eof, byteLen r.st.src, byteLen r.st.src⟩, r) := by
  unfold try_next_token
  rw [advance_token_at_eof h1]
  cases r with
  | mk st pt pl ph =>
    simp at h2 h3 h4
    simp [h2, h3, h4]

theorem c9_eof_idempotent_witness :
    try_next_token ⟨⟨"a".data, 1, 1, none, []⟩, .Eof, 1, 1⟩ =
      .ok (⟨.Eof, 1, 1⟩, ⟨⟨"a".data, 1, 1, none, []⟩, .Eof, 1, 1⟩) := by
  have hb : byteLen ("a".data) = 1 := by decide
  have := c9_eof_idempotent ⟨⟨"a".data, 1, 1, none, []⟩, .Eof, 1, 1⟩
    ⟨['a'], [], rfl, by decide, rfl, rfl⟩ rfl rfl (by simpa using hb.symm)
    (by simpa using hb.symm)
  simpa [hb] using this

/-- C2 counterexample: on `0b.5`, after the (empty) integer part a `.`
follows that neither starts `..` nor is followed by an ident start, so
the claimed rule classifies the literal as a float; the scanner instead
reports "no valid digits found for number" and returns the `Integer`
placeholder `"0"`, then lexes `.` and `5` as separate tokens. -/
theorem c2_float_iff_counterexample :
    specFloatCond (intPartState (scanIntPart '0' (new_raw "0b.5".data))) =
        true ∧
    (new_or_buffered_errs "0b.5".data).map (lexAll 10) =
      .ok (some (.ok [⟨.Literal (.integer ['0']) none, 0, 2⟩, ⟨.Dot, 2, 3⟩,
        ⟨.Literal (.integer ['5']) none, 3, 4⟩])) := by decide

/-- The early `just a 0` return of `scan_number` happens only when the
character after the `0` is none of `.`, `e`, `E` (among others), so the
spec-side float condition is false there. -/
theorem scanIntPart_justZero_spec {c : Char} {st st1 : LexState}
    (hip : scanIntPart c st = .justZero st1) :
    st1 = st.bump ∧ specFloatCond st1 = false := by
  unfold scanIntPart at hip
  by_cases h0 : c = '0'
  · rw [if_pos h0] at hip
    dsimp only at hip
    by_cases hb : st.bump.ch.getD '\x00' = 'b'
    · rw [if_pos hb] at hip; cases hip
    rw [if_neg hb] at hip
    by_cases ho : st.bump.ch.getD '\x00' = 'o'
    · rw [if_pos ho] at hip; cases hip
    rw [if_neg ho] at hip
    by_cases hx : st.bump.ch.getD '\x00' = 'x'
    · rw [if_pos hx] at hip; cases hip
    rw [if_neg hx] at hip
    by_cases hn : ('0' ≤ st.bump.ch.getD '\x00' ∧
        st.bump.ch.getD '\x00' ≤ '9') ∨ st.bump.ch.getD '\x00' = '_' ∨
        st.bump.ch.getD '\x00' = '.' ∨ st.bump.ch.getD '\x00' = 'e' ∨
        st.bump.ch.getD '\x00' = 'E'
    · rw [if_pos hn] at hip; cases hip
    rw [if_neg hn] at hip
    injection hip with h1
    refine ⟨h1.symm, ?_⟩
    push_neg at hn
    obtain ⟨-, -, h3, h4, h5⟩ := hn
    subst h1
    cases hch : st.bump.ch with
    | none => simp [specFloatCond, LexState.ch_is, hch]
    | some d =>
      rw [hch] at h3 h4 h5
      simp only [Option.getD_some] at h3 h4 h5
      simp [specFloatCond, LexState.ch_is, hch, h3, h4, h5]
  · rw [if_neg h0] at hip
    by_cases hd10 : (toDigit c 10).isSome = true
    · rw [if_pos hd10] at hip; cases hip
    · rw [if_neg hd10] at hip; cases hip

/-- C2 (amended): provided the integer part contains at least one digit
(a prefixed literal with zero digits is replaced by the `Integer`
placeholder `"0"` before the float check), `scan_number` returns a float
exactly when, after the integer part, a `.` follows that is not the
start of `..` and is not immediately followed by an ident-start
character, or an exponent `e`/`E` follows. -/
theorem c2_float_iff (st : LexState) (c : Char)
    (hnd : intPartDigits (scanIntPart c st) ≠ some 0) :
    isFloatLit (scan_number c st).1 =
      specFloatCond (intPartState (scanIntPart c st)) := by
  cases hip : scanIntPart c st with
  | justZero st1 =>
    have hnum : scan_number c st = (.integer (st1.name_from st.pos), st1) := by
      unfold scan_number; rw [hip]
    obtain ⟨-, hcond⟩ := scanIntPart_justZero_spec hip
    rw [hnum]
    simp [isFloatLit, intPartState, hcond]
  | scanned base n st1 =>
    rw [hip] at hnd
    simp only [intPartDigits, ne_eq, Option.some.injEq] at hnd
    have hnum : scan_number c st =
        (if n = 0 then
          (.integer ['0'],
           st1.pushDiag st.pos st1.pos "no valid digits found for number"
             .error)
        else if st1.ch_is '.' ∧ ¬ st1.nextch_is '.' = true ∧
            ¬ ident_start st1.nextch = true then
          (let st2 := st1.bump
           let st3 :=
             if (toDigit (st2.ch.getD '\x00') 10).isSome then
               scan_float_exponent (scan_digits 10 10 st2).2
             else st2
           let st4 := check_float_base st3 st.pos st3.pos base
           (.float (st4.name_from st.pos), st4))
        else if st1.ch_is 'e' || st1.ch_is 'E' then
          (let st2 := scan_float_exponent st1
           let st3 := check_float_base st2 st.pos st2.pos base
           (.float (st3.name_from st.pos), st3))
        else (.integer (st1.name_from st.pos), st1)) := by
      unfold scan_number; rw [hip]
    rw [hnum, if_neg hnd]
    simp only [intPartState]
    by_cases hcond1 : st1.ch_is '.' = true ∧ ¬ st1.nextch_is '.' = true ∧
        ¬ ident_start st1.nextch = true
    · rw [if_pos hcond1]
      obtain ⟨ha, hb2, hc2⟩ := hcond1
      simp only [Bool.not_eq_true] at hb2 hc2
      simp [specFloatCond, isFloatLit, ha, hb2, hc2]
    · rw [if_neg hcond1]
      by_cases he : (st1.ch_is 'e' || st1.ch_is 'E') = true
      · rw [if_pos he]
        have hrhs : specFloatCond st1 = true := by
          simp only [specFloatCond, Bool.or_eq_true] at he ⊢
          tauto
        simp [isFloatLit, hrhs]
      · rw [if_neg he]
        have hrhs : specFloatCond st1 = false := by
          simp only [Bool.or_eq_true, not_or] at he
          obtain ⟨he1, he2⟩ := he
          simp only [Bool.not_eq_true] at he1 he2
          simp only [specFloatCond, he1, he2, Bool.or_false]
          cases hdot : st1.ch_is '.' with
          | false => simp
          | true =>
            have hrest := hcond1
            push_neg at hrest
            have := hrest hdot
            simp only [Bool.not_eq_true] at this
            cases hn : st1.nextch_is '.' with
            | true => simp [hn]
            | false =>
              have hid := this (by simp [hn])
              simp [hid]
        simp [isFloatLit, hrhs]

/-- C2 witness: on `1.` the integer part has one digit, the condition
holds and the scanner indeed produces a float. -/
theorem c2_float_iff_witness :
    intPartDigits (scanIntPart '1' (new_raw "1.".data)) ≠ some 0 ∧
    isFloatLit (scan_number '1' (new_raw "1.".data)).1 =
      specFloatCond (intPartState (scanIntPart '1' (new_raw "1.".data))) :=
  ⟨by decide, c2_float_iff _ _ (by decide)⟩

theorem pushDiag_mem_errs {d : Diag} {st : LexState} (lo hi : Nat)
    (m : String) (lv : Level) (h : d ∈ st.errs) :
    d ∈ (st.pushDiag lo hi m lv).errs := by
  simp only [LexState.pushDiag, List.mem_append]
  exact Or.inl h

theorem pushDiag_self_mem (st : LexState) (lo hi : Nat) (m : String)
    (lv : Level) : (⟨lo, hi, m, lv⟩ : Diag) ∈ (st.pushDiag lo hi m lv).errs := by
  simp [LexState.pushDiag]

theorem check_float_base_mem_errs {d : Diag} {st : LexState}
    (a b base : Nat) (h : d ∈ st.errs) :
    d ∈ (check_float_base st a b base).errs := by
  unfold check_float_base
  split
  · exact pushDiag_mem_errs _ _ _ _ h
  · exact pushDiag_mem_errs _ _ _ _ h
  · exact pushDiag_mem_errs _ _ _ _ h
  · exact h

/-- When no decimal digit follows the exponent marker (after the
optional sign), `scan_float_exponent` emits — but does not raise — a
fatal-severity "expected at least one digit in exponent" diagnostic. -/
theorem scan_float_exponent_no_digit (st : LexState)
    (he : st.ch_is 'e' = true ∨ st.ch_is 'E' = true)
    (hnod : (scan_digits 10 10
      (if (st.bump.ch_is '-' || st.bump.ch_is '+') = true then st.bump.bump
       else st.bump)).1 = 0) :
    ∃ d ∈ (scan_float_exponent st).errs,
      d.msg = "expected at least one digit in exponent" ∧
      d.level = .fatalLevel := by
  have he2 : (st.ch_is 'e' || st.ch_is 'E') = true := by
    rcases he with h | h <;> simp [h]
  unfold scan_float_exponent
  rw [if_pos he2]
  dsimp only
  by_cases hsign : (st.bump.ch_is '-' || st.bump.ch_is '+') = true
  · rw [if_pos hsign] at hnod ⊢
    rw [if_pos hnod]
    cases hch : (scan_digits 10 10 st.bump.bump).2.ch with
    | none => exact ⟨_, pushDiag_self_mem _ _ _ _ _, rfl, rfl⟩
    | some c =>
      dsimp only
      by_cases hcs : check_for_substitution c = true
      · rw [if_pos hcs]
        exact ⟨_, pushDiag_self_mem _ _ _ _ _, rfl, rfl⟩
      · rw [if_neg hcs]
        exact ⟨_, pushDiag_self_mem _ _ _ _ _, rfl, rfl⟩
  · rw [if_neg hsign] at hnod ⊢
    rw [if_pos hnod]
    cases hch : (scan_digits 10 10 st.bump).2.ch with
    | none => exact ⟨_, pushDiag_self_mem _ _ _ _ _, rfl, rfl⟩
    | some c =>
      dsimp only
      by_cases hcs : check_for_substitution c = true
      · rw [if_pos hcs]
        exact ⟨_, pushDiag_self_mem _ _ _ _ _, rfl, rfl⟩
      · rw [if_neg hcs]
        exact ⟨_, pushDiag_self_mem _ _ _ _ _, rfl, rfl⟩

/-- C3 counterexample: lexing `1e` does not abort: the stream completes,
producing a recovered `Float("1e")` token and leaving behind exactly one
emitted (not raised) fatal-severity diagnostic. -/
theorem c3_counterexample :
    advance_token (new_raw "1e".data) =
      .ok (⟨.Literal (.float "1e".data) none, 0, 2⟩,
        ⟨"1e".data, 2, 2, none,
          [⟨2, 2, "expected at least one digit in exponent",
            .fatalLevel⟩]⟩) := by decide

/-- C3 (amended): when a numeric literal carries an exponent marker with
no decimal digit after it (and no confusable substitution applies to
recover digits), the lexer emits a fatal-severity "expected at least one
digit in exponent" diagnostic through the handler but does not raise it:
`scan_number` continues and returns a `Float` token. -/
theorem c3_missing_exponent_digit (c : Char) (st st1 : LexState)
    (base n : Nat) (hip : scanIntPart c st = .scanned base n st1)
    (hn : n ≠ 0)
    (hdot : ¬(st1.ch_is '.' = true ∧ ¬ st1.nextch_is '.' = true ∧
      ¬ ident_start st1.nextch = true))
    (he : st1.ch_is 'e' = true ∨ st1.ch_is 'E' = true)
    (hnod : (scan_digits 10 10
      (if (st1.bump.ch_is '-' || st1.bump.ch_is '+') = true then
        st1.bump.bump else st1.bump)).1 = 0) :
    isFloatLit (scan_number c st).1 = true ∧
    ∃ d ∈ (scan_number c st).2.errs,
      d.msg = "expected at least one digit in exponent" ∧
      d.level = .fatalLevel := by
  have he2 : (st1.ch_is 'e' || st1.ch_is 'E') = true := by
    rcases he with h | h <;> simp [h]
  have hnum : scan_number c st =
      (let st2 := scan_float_exponent st1
       let st3 := check_float_base st2 st.pos st2.pos base
       (.float (st3.name_from st.pos), st3)) := by
    unfold scan_number
    rw [hip]
    dsimp only
    rw [if_neg hn, if_neg hdot, if_pos he2]
  rw [hnum]
  dsimp only
  refine ⟨rfl, ?_⟩
  obtain ⟨d, hmem, hmsg, hlv⟩ := scan_float_exponent_no_digit st1 he hnod
  exact ⟨d, check_float_base_mem_errs _ _ _ hmem, hmsg, hlv⟩

/-- C3 witness: the hypotheses hold on the literal `1e`, whose exponent
has no digits, and the conclusion follows by the theorem. -/
theorem c3_missing_exponent_digit_witness :
    scanIntPart '1' (new_raw "1e".data) =
      .scanned 10 1 ⟨"1e".data, 1, 2, some 'e', []⟩ ∧
    (isFloatLit (scan_number '1' (new_raw "1e".data)).1 = true ∧
     ∃ d ∈ (scan_number '1' (new_raw "1e".data)).2.errs,
       d.msg = "expected at least one digit in exponent" ∧
       d.level = .fatalLevel) :=
  ⟨by decide,
   c3_missing_exponent_digit '1' (new_raw "1e".data)
     ⟨"1e".data, 1, 2, some 'e', []⟩ 10 1 (by decide) (by decide)
     (by decide) (Or.inl (by decide)) (by decide)⟩

theorem whitespace_precondition_check_eq {st : LexState} {c : Char}
    (h : st.ch = some c) (hws : Pattern_White_Space c = false) :
    whitespace_precondition_check st = st := by
  unfold whitespace_precondition_check
  rw [h]
  simp [hws]

/-- C6: a line comment `//…` is classified as a doc comment exactly when
its third character is `/` not followed by a fourth `/`, or its third
character is `!`; in particular `////…` yields a plain `Comment` and
`///` alone a `DocComment`. -/
theorem c6_line_doc_comment (st : LexState) (rest : List Char)
    (hwf : wf st) (hcr : chRest st = '/' :: '/' :: rest) :
    ∃ tas st2, scan_comment st = .ok (some tas, st2) ∧
      (isDocCommentTok tas.tok = true ↔
        ((rest.head? = some '/' ∧ rest.tail.head? ≠ some '/') ∨
         rest.head? = some '!')) := by
  have hch : st.ch = some '/' := by rw [wf_ch hwf, hcr]; rfl
  have hnx : st.nextch = some '/' := by
    rw [LexState.nextch, wf_tail hwf, hcr]; rfl
  have hwf1 := wf_bump hwf
  have hc1 : chRest st.bump = '/' :: rest := by rw [chRest_bump hwf, hcr]; rfl
  have hwf2 := wf_bump hwf1
  have hc2 : chRest st.bump.bump = rest := by rw [chRest_bump hwf1, hc1]; rfl
  have hch2 : st.bump.bump.ch = rest.head? := by rw [wf_ch hwf2, hc2]
  have hnx2 : st.bump.bump.nextch = rest.tail.head? := by
    rw [LexState.nextch, wf_tail hwf2, hc2]
  have hpre : whitespace_precondition_check st = st :=
    whitespace_precondition_check_eq hch (by decide)
  have hchis : st.ch_is '/' = true := by simp [LexState.ch_is, hch]
  unfold scan_comment
  rw [hpre, if_pos hchis, hnx]
  refine ⟨_, _, rfl, ?_⟩
  have hdc : ((st.bump.bump.ch_is '/' && ! st.bump.bump.nextch_is '/') ||
      st.bump.bump.ch_is '!') = true ↔
      ((rest.head? = some '/' ∧ rest.tail.head? ≠ some '/') ∨
       rest.head? = some '!') := by
    simp [LexState.ch_is, LexState.nextch_is, hch2, hnx2]
  by_cases hb : ((st.bump.bump.ch_is '/' && ! st.bump.bump.nextch_is '/') ||
      st.bump.bump.ch_is '!') = true
  · rw [if_pos hb]
    simpa [isDocCommentTok] using hdc.mp hb
  · rw [if_neg hb]
    simp only [isDocCommentTok]
    constructor
    · intro hfalse; cases hfalse
    · intro hcon; exact absurd (hdc.mpr hcon) hb

/-- C6 witness: `///x` is recognized as a line doc comment. -/
theorem c6_line_doc_comment_witness :
    chRest (new_raw "///x".data) = '/' :: '/' :: "/x".data ∧
    ∃ tas st2,
      scan_comment (new_raw "///x".data) = .ok (some tas, st2) ∧
      (isDocCommentTok tas.tok = true ↔
        (("/x".data.head? = some '/' ∧ "/x".data.tail.head? ≠ some '/') ∨
         "/x".data.head? = some '!')) :=
  ⟨by decide,
   c6_line_doc_comment (new_raw "///x".data) "/x".data
     (wf_new_raw "///x".data) (by decide)⟩

theorem blockCommentLoopF_ok_src (is_doc : Bool) (sb : Nat) :
    ∀ (f : Nat) (st : LexState) (level : Nat) (hc : Bool)
      (st1 : LexState) (b : Bool),
      blockCommentLoopF is_doc sb f st level hc = .ok (st1, b) →
      st1.src = st.src := by
  intro f
  induction f with
  | zero => intro st level hc st1 b h; cases h
  | succ f ih =>
    intro st level hc st1 b h
    simp only [blockCommentLoopF] at h
    split at h
    · cases h; rfl
    · split at h
      · cases h
      · split at h
        · have := ih _ _ _ _ _ h
          rw [this, bump_src, bump_src]
        · split at h
          · have := ih _ _ _ _ _ h
            rw [this, bump_src, bump_src]
          · split at h
            · have := ih _ _ _ _ _ h
              rw [this, bump_src]
            · have := ih _ _ _ _ _ h
              rw [this, bump_src]

theorem is_block_doc_comment_iff (s : List Char) :
    is_block_doc_comment s = true ↔
      (((s.take 3 = ['/', '*', '*'] ∧ s[3]? ≠ some '*') ∨
        s.take 3 = ['/', '*', '!']) ∧ 5 ≤ byteLen s) := by
  simp [is_block_doc_comment]

/-- C7: a terminated block comment is classified as a doc comment
exactly when its full text starts with `/**` whose fourth byte is not
`*`, or starts with `/*!`, and its total length is at least 5 bytes; in
particular `/**/` and every `/***…` comment are plain comments. -/
theorem c7_block_doc_comment (st st2 : LexState) (tas : TokenAndSpan)
    (h : scan_block_comment st = .ok (tas, st2)) :
    (isDocCommentTok tas.tok = true ↔
      ((((sliceB st.src tas.lo tas.hi).take 3 = ['/', '*', '*'] ∧
         (sliceB st.src tas.lo tas.hi)[3]? ≠ some '*') ∨
        (sliceB st.src tas.lo tas.hi).take 3 = ['/', '*', '!']) ∧
       5 ≤ byteLen (sliceB st.src tas.lo tas.hi))) ∧
    is_block_doc_comment ['/', '*', '*', '/'] = false ∧
    (∀ t2 : List Char,
      is_block_doc_comment ('/' :: '*' :: '*' :: '*' :: t2) = false) := by
  refine ⟨?_, by decide, fun t2 => by simp [is_block_doc_comment]⟩
  unfold scan_block_comment at h
  dsimp only at h
  cases hbl : blockCommentLoop (st.ch_is '*' || st.ch_is '!') (st.pos - 2)
      st 1 false with
  | error e => rw [hbl] at h; cases h
  | ok p =>
    obtain ⟨st1, has_cr⟩ := p
    rw [hbl] at h
    dsimp only at h
    have hsrc : st1.src = st.src :=
      blockCommentLoopF_ok_src _ _ _ _ _ _ _ _ hbl
    by_cases hd : is_block_doc_comment
        (sliceB st1.src (st.pos - 2) st1.pos) = true
    · rw [if_pos hd] at h
      cases h
      rw [hsrc] at hd
      simpa [isDocCommentTok] using (is_block_doc_comment_iff _).mp hd
    · rw [if_neg hd] at h
      cases h
      rw [hsrc] at hd
      simp only [isDocCommentTok]
      constructor
      · intro hfalse; cases hfalse
      · intro hcon
        exact absurd ((is_block_doc_comment_iff _).mpr hcon) hd

theorem bump_pos_eq {st : LexState} {c : Char} {t : List Char}
    (hwf : wf st) (hcr : chRest st = c :: t) :
    st.bump.pos = st.pos + utf8Len c := by
  rw [bump_pos, wf_next_pos hwf, hcr]

/-- When the fence candidate is followed by `k` hashes, the inner check
succeeds, consuming the candidate character and `k − 1` hashes and
parking on the `k`-th (for `k = 0` it does not move). -/
theorem checkFence_true : ∀ (k : Nat) (st : LexState) (c0 : Char)
    (t2 : List Char), wf st →
    chRest st = c0 :: (List.replicate k '#' ++ t2) → utf8Len c0 = 1 →
    ∃ stN, checkFence k st = (true, stN) ∧ wf stN ∧ stN.src = st.src ∧
      stN.errs = st.errs ∧ stN.pos = st.pos + k ∧
      chRest stN = (c0 :: (List.replicate k '#' ++ t2)).drop k := by
  intro k
  induction k with
  | zero =>
    intro st c0 t2 hwf hcr h1
    exact ⟨st, rfl, hwf, rfl, rfl, rfl, by rw [hcr]; rfl⟩
  | succ k ih =>
    intro st c0 t2 hwf hcr h1
    have hb := wf_bump hwf
    have hcb2 : chRest st.bump = '#' :: (List.replicate k '#' ++ t2) := by
      rw [chRest_bump hwf, hcr, List.replicate_succ]; rfl
    have hch1 : st.bump.ch = some '#' := by rw [wf_ch hb, hcb2]; rfl
    have hpos1 : st.bump.pos = st.pos + 1 := by
      rw [bump_pos_eq hwf hcr, h1]
    have hchis : st.bump.ch_is '#' = true := by
      simp [LexState.ch_is, hch1]
    obtain ⟨stN, heq, hw, hs, he, hp, hc⟩ :=
      ih st.bump '#' t2 hb hcb2 (by decide)
    refine ⟨stN, ?_, hw, by rw [hs, bump_src], by rw [he, bump_errs],
      by rw [hp, hpos1]; omega, ?_⟩
    · show (if st.bump.ch_is '#' then checkFence k st.bump
        else (false, st.bump)) = (true, stN)
      rw [if_pos hchis, heq]
    · rw [hc, List.replicate_succ]
      rfl

/-- When the characters after the fence candidate are not `N` hashes,
the inner check fails after skipping the candidate and the `j < N`
hashes that do lead the tail. -/
theorem checkFence_false : ∀ (N : Nat) (st : LexState) (c0 : Char)
    (t : List Char), wf st → chRest st = c0 :: t → utf8Len c0 = 1 →
    ¬(t.take N = List.replicate N '#') →
    ∃ j stF, checkFence N st = (false, stF) ∧ wf stF ∧
      stF.src = st.src ∧ stF.errs = st.errs ∧ j < N ∧
      t.take j = List.replicate j '#' ∧ stF.pos = st.pos + 1 + j ∧
      chRest stF = t.drop j := by
  intro N
  induction N with
  | zero => intro st c0 t hwf hcr h1 hne; simp at hne
  | succ N ih =>
    intro st c0 t hwf hcr h1 hne
    have hb := wf_bump hwf
    have hct : chRest st.bump = t := by rw [chRest_bump hwf, hcr]; rfl
    have hpos1 : st.bump.pos = st.pos + 1 := by
      rw [bump_pos_eq hwf hcr, h1]
    cases t with
    | nil =>
      have hch1 : st.bump.ch = none := by rw [wf_ch hb, hct]; rfl
      have hno : st.bump.ch_is '#' = false := by
        simp [LexState.ch_is, hch1]
      refine ⟨0, st.bump, ?_, hb, bump_src st, bump_errs st,
        Nat.succ_pos N, by simp, by rw [hpos1], by rw [hct, List.drop_zero]⟩
      show (if st.bump.ch_is '#' then checkFence N st.bump
        else (false, st.bump)) = (false, st.bump)
      rw [hno]
      simp
    | cons c2 t2 =>
      have hch1 : st.bump.ch = some c2 := by rw [wf_ch hb, hct]; rfl
      by_cases hc2 : c2 = '#'
      · subst hc2
        have hchis : st.bump.ch_is '#' = true := by
          simp [LexState.ch_is, hch1]
        have hne2 : ¬(t2.take N = List.replicate N '#') := by
          intro hcontra
          apply hne
          rw [List.take_succ_cons, hcontra, List.replicate_succ]
        obtain ⟨j, stF, heq, hw, hs, he, hj, htk, hp, hc⟩ :=
          ih st.bump '#' t2 hb hct (by decide) hne2
        refine ⟨j + 1, stF, ?_, hw, by rw [hs, bump_src],
          by rw [he, bump_errs], by omega, ?_, ?_, ?_⟩
        · show (if st.bump.ch_is '#' then checkFence N st.bump
            else (false, st.bump)) = (false, stF)
          rw [if_pos hchis, heq]
        · rw [List.take_succ_cons, htk, List.replicate_succ]
        · rw [hp, hpos1]; omega
        · rw [hc]; rfl
      · have hno : st.bump.ch_is '#' = false := by
          simp [LexState.ch_is, hch1, hc2]
        refine ⟨0, st.bump, ?_, hb, bump_src st, bump_errs st,
          Nat.succ_pos N, by simp, by rw [hpos1], by rw [hct, List.drop_zero]⟩
        show (if st.bump.ch_is '#' then checkFence N st.bump
          else (false, st.bump)) = (false, st.bump)
        rw [hno]
        simp

theorem byteLen_replicate_hash (j : Nat) :
    byteLen (List.replicate j '#') = j := by
  induction j with
  | zero => rfl
  | succ j ih =>
    rw [List.replicate_succ]
    show utf8Len '#' + byteLen (List.replicate j '#') = j + 1
    rw [ih, show utf8Len '#' = 1 by decide]
    omega

/-- Inverting [[specFindClose]]: the input is the body, the fence, and
the leftover. -/
theorem specFindClose_decomp {N : Nat} :
    ∀ {l body rest : List Char}, specFindClose N l = some (body, rest) →
      l = body ++ '"' :: (List.replicate N '#' ++ rest) := by
  intro l
  induction l with
  | nil => intro body rest h; simp [specFindClose] at h
  | cons c cs ih =>
    intro body rest h
    simp only [specFindClose] at h
    split at h
    · rename_i hcond
      obtain ⟨hq, htake⟩ := hcond
      simp only [Option.some.injEq, Prod.mk.injEq] at h
      obtain ⟨hb, hr⟩ := h
      subst hb hr hq
      simp only [List.nil_append, List.cons.injEq, true_and]
      rw [← htake]
      exact (List.take_append_drop N cs).symm
    · cases hsc : specFindClose N cs with
      | none => rw [hsc] at h; simp at h
      | some p =>
        rw [hsc] at h
        simp only [Option.map_some', Option.some.injEq, Prod.mk.injEq] at h
        obtain ⟨hb, hr⟩ := h
        subst hb
        subst hr
        have hd := ih hsc
        rw [hd]
        rfl

/-- Leading hashes of the remaining input are always body content: they
can be peeled off both the input and the body found by
[[specFindClose]]. -/
theorem specFindClose_drop_hashes :
    ∀ (j : Nat) {N : Nat} {t body rest : List Char},
      t.take j = List.replicate j '#' →
      specFindClose N t = some (body, rest) →
      specFindClose N (t.drop j) = some (body.drop j, rest) ∧
        body.take j = List.replicate j '#' := by
  intro j
  induction j with
  | zero => intro N t body rest htake h; simpa using h
  | succ j ih =>
    intro N t body rest htake h
    cases t with
    | nil => simp at htake
    | cons c cs =>
      rw [List.take_succ_cons, List.replicate_succ, List.cons.injEq] at htake
      obtain ⟨hc, htake2⟩ := htake
      subst hc
      simp only [specFindClose] at h
      rw [if_neg (by simp)] at h
      cases hsc : specFindClose N cs with
      | none => rw [hsc] at h; simp at h
      | some p =>
        rw [hsc] at h
        simp only [Option.map_some', Option.some.injEq, Prod.mk.injEq] at h
        obtain ⟨hd, hr⟩ := h
        subst hd
        subst hr
        obtain ⟨hfind, hbtake⟩ := ih htake2 hsc
        refine ⟨?_, ?_⟩
        · rw [List.drop_succ_cons, List.drop_succ_cons]
          exact hfind
        · rw [List.take_succ_cons, hbtake, List.replicate_succ]

theorem hasBareCR_cons {c : Char} {l : List Char} (h : ¬ c = '\r') :
    hasBareCR (c :: l) = hasBareCR l := by
  cases l <;> simp [hasBareCR, h]

theorem hasBareCR_replicate_hash (j : Nat) (x : List Char) :
    hasBareCR (List.replicate j '#' ++ x) = hasBareCR x := by
  induction j with
  | zero => rfl
  | succ j ih =>
    rw [List.replicate_succ, List.cons_append, hasBareCR_cons (by decide),
      ih]

/-- The raw string body loop finds exactly the body determined by the
specification's fence search: it stops at the first `"` followed by `N`
hashes, treats a `"` followed by fewer hashes as body content, collects
one "bare CR" diagnostic per bare carriage return, and clears the
`valid` flag exactly when the body contains one. -/
theorem rawStrLoopF_ok : ∀ (f : Nat) (st : LexState) (sb N : Nat)
    (valid : Bool) (body rest : List Char), wf st →
    (chRest st).length < f →
    specFindClose N (chRest st) = some (body, rest) →
    ∃ stN ds, rawStrLoopF sb N f valid st =
        .ok (st.pos + byteLen body, valid && ! hasBareCR body, stN) ∧
      wf stN ∧ stN.src = st.src ∧ stN.errs = st.errs ++ ds ∧
      chRest stN = (chRest st).drop (body.length + N) ∧
      (ds = [] ↔ hasBareCR body = false) ∧
      (∀ d ∈ ds,
        d.msg = "bare CR not allowed in raw string, use \\r instead" ∧
        d.level = .error) := by
  intro f
  induction f with
  | zero => intro st sb N valid body rest hwf hlen hfc; omega
  | succ f ih =>
    intro st sb N valid body rest hwf hlen hfc
    cases hcr : chRest st with
    | nil => rw [hcr] at hfc; simp [specFindClose] at hfc
    | cons c cs =>
      have hch : st.ch = some c := by rw [wf_ch hwf, hcr]; rfl
      rw [hcr] at hfc
      simp only [specFindClose] at hfc
      by_cases hfence : c = '"' ∧ cs.take N = List.replicate N '#'
      · rw [if_pos hfence] at hfc
        simp only [Option.some.injEq, Prod.mk.injEq] at hfc
        obtain ⟨hb, hr⟩ := hfc
        subst hb
        subst hr
        obtain ⟨hq, htake⟩ := hfence
        subst hq
        have hdecomp : cs = List.replicate N '#' ++ cs.drop N := by
          rw [← htake]
          exact (List.take_append_drop N cs).symm
        obtain ⟨stN, hcf, hw, hs, he, hp, hcrest⟩ :=
          checkFence_true N st '"' (cs.drop N) hwf
            (by rw [hcr]; rw [← hdecomp]) (by decide)
        refine ⟨stN, [], ?_, hw, hs, by rw [he]; simp, ?_,
          by simp [hasBareCR], by simp⟩
        · simp only [rawStrLoopF]
          rw [hch]
          simp only [reduceIte]
          rw [hcf]
          simp [byteLen, hasBareCR]
        · rw [hcrest, ← hdecomp]
          simp
      · rw [if_neg hfence] at hfc
        cases hsc : specFindClose N cs with
        | none => rw [hsc] at hfc; simp at hfc
        | some p =>
          rw [hsc] at hfc
          simp only [Option.map_some', Option.some.injEq,
            Prod.mk.injEq] at hfc
          obtain ⟨hb, hr⟩ := hfc
          subst hb
          subst hr
          have hcs_len : cs.length < f := by
            have : (chRest st).length = cs.length + 1 := by rw [hcr]; rfl
            omega
          by_cases hq : c = '"'
          · subst hq
            have hnotake : ¬(cs.take N = List.replicate N '#') :=
              fun hcontra => hfence ⟨rfl, hcontra⟩
            obtain ⟨j, stF, hcf, hwF, hsF, heF, hj, htk, hpF, hcF⟩ :=
              checkFence_false N st '"' cs hwf hcr (by decide) hnotake
            obtain ⟨hdrop, hbtake⟩ := specFindClose_drop_hashes j htk hsc
            have hjle : j ≤ p.1.length := by
              have := congrArg List.length hbtake
              simp at this
              omega
            obtain ⟨stN, ds, heq, hwN, hsN, heN, hcN, hdse, hdsm⟩ :=
              ih stF sb N valid (p.1.drop j) p.2 hwF
                (by rw [hcF]; have := List.length_drop j cs; omega)
                (by rw [hcF]; exact hdrop)
            have hblen : byteLen p.1 = j + byteLen (List.drop j p.1) := by
              conv_lhs => rw [← List.take_append_drop j p.1]
              rw [byteLen_append, hbtake, byteLen_replicate_hash]
            have hbare : hasBareCR ('"' :: p.1) = hasBareCR (List.drop j p.1) := by
              rw [hasBareCR_cons (by decide)]
              conv_lhs => rw [← List.take_append_drop j p.1]
              rw [hbtake, hasBareCR_replicate_hash]
            refine ⟨stN, ds, ?_, hwN, by rw [hsN, hsF], by rw [heN, heF],
              ?_, by rw [hdse, hbare], hdsm⟩
            · simp only [rawStrLoopF]
              rw [hch]
              simp only [reduceIte]
              rw [hcf]
              dsimp only
              rw [heq]
              have h1 : stF.pos + byteLen (List.drop j p.1) =
                  st.pos + byteLen ('"' :: p.1) := by
                rw [hpF]
                show _ = st.pos + (utf8Len '"' + byteLen p.1)
                rw [show utf8Len '"' = 1 by decide, hblen]
                omega
              rw [h1, hbare]
            · rw [hcN, hcF, List.drop_drop]
              have h2 : (List.drop j p.1).length = p.1.length - j := by
                simp
              have h3 : ('"' :: p.1).length + N = (p.1.length + N) + 1 := by
                simp [List.length_cons]
                omega
              rw [h2, h3, List.drop_succ_cons]
              congr 1
              omega
          · by_cases hbare2 : c = '\r' ∧ ¬ st.nextch_is '\n' = true
            · obtain ⟨hcr2, hnn⟩ := hbare2
              subst hcr2
              have hwP : wf (st.pushDiag sb st.pos
                  "bare CR not allowed in raw string, use \\r instead"
                  .error) := hwf
              have hcrP : chRest (st.pushDiag sb st.pos
                  "bare CR not allowed in raw string, use \\r instead"
                  .error) = '\r' :: cs := by
                rw [chRest_pushDiag, hcr]
              have hwB := wf_bump hwP
              have hcB : chRest (st.pushDiag sb st.pos
                  "bare CR not allowed in raw string, use \\r instead"
                  .error).bump = cs := by
                rw [chRest_bump hwP, hcrP]
                rfl
              obtain ⟨stN, ds, heq, hwN, hsN, heN, hcN, hdse, hdsm⟩ :=
                ih _ sb N false p.1 p.2 hwB
                  (by rw [hcB]; omega) (by rw [hcB]; exact hsc)
              have hcsh : cs.head? ≠ some '\n' := by
                intro hcontra
                apply hnn
                simp only [LexState.nextch_is, LexState.nextch,
                  wf_tail hwf, hcr]
                simp [hcontra]
              have hbarecr : hasBareCR ('\r' :: p.1) = true := by
                have hdec := specFindClose_decomp hsc
                cases hp1 : p.1 with
                | nil => simp [hasBareCR]
                | cons c2 t2 =>
                  have : cs.head? = some c2 := by
                    rw [hdec, hp1]; rfl
                  have hc2 : c2 ≠ '\n' := by
                    intro hcontra
                    exact hcsh (by rw [this, hcontra])
                  simp [hasBareCR, hc2]
              have hposB : (st.pushDiag sb st.pos
                  "bare CR not allowed in raw string, use \\r instead"
                  .error).bump.pos = st.pos + 1 := by
                rw [bump_pos_eq hwP hcrP]
                rfl
              refine ⟨stN, ⟨sb, st.pos,
                "bare CR not allowed in raw string, use \\r instead",
                .error⟩ :: ds, ?_, hwN, by rw [hsN, bump_src, pushDiag_src],
                ?_, ?_, ?_, ?_⟩
              · simp only [rawStrLoopF]
                rw [hch]
                dsimp only
                rw [if_neg hq]
                rw [if_pos ⟨rfl, hnn⟩]
                rw [heq]
                have h1 : (st.pushDiag sb st.pos
                    "bare CR not allowed in raw string, use \\r instead"
                    .error).bump.pos + byteLen p.1 =
                    st.pos + byteLen ('\r' :: p.1) := by
                  rw [hposB]
                  show _ = st.pos + (utf8Len '\r' + byteLen p.1)
                  rw [show utf8Len '\r' = 1 by decide]
                  omega
                rw [h1, hbarecr]
                simp
              · rw [heN, bump_errs]
                simp [LexState.pushDiag]
              · rw [hcN, hcB]
                have h2 : ('\r' :: p.1).length + N = (p.1.length + N) + 1 := by
                  simp [List.length_cons]
                  omega
                rw [h2, List.drop_succ_cons]
              · constructor
                · intro hcontra; cases hcontra
                · intro hcontra; rw [hbarecr] at hcontra; cases hcontra
              · intro d hd
                rcases List.mem_cons.mp hd with hd | hd
                · subst hd
                  exact ⟨rfl, rfl⟩
                · exact hdsm d hd
            · have hwB := wf_bump hwf
              have hcB : chRest st.bump = cs := by
                rw [chRest_bump hwf, hcr]
                rfl
              obtain ⟨stN, ds, heq, hwN, hsN, heN, hcN, hdse, hdsm⟩ :=
                ih st.bump sb N valid p.1 p.2 hwB
                  (by rw [hcB]; omega) (by rw [hcB]; exact hsc)
              have hbeq : hasBareCR (c :: p.1) = hasBareCR p.1 := by
                by_cases hc : c = '\r'
                · subst hc
                  have hnn : st.nextch_is '\n' = true := by
                    by_contra hcontra
                    exact hbare2 ⟨rfl, hcontra⟩
                  have hnx : st.nextch = some '\n' := of_decide_eq_true hnn
                  have hcsh : cs.head? = some '\n' := by
                    rw [LexState.nextch, wf_tail hwf, hcr] at hnx
                    exact hnx
                  have hdec := specFindClose_decomp hsc
                  cases hp1 : p.1 with
                  | nil =>
                    rw [hdec, hp1] at hcsh
                    simp at hcsh
                  | cons c2 t2 =>
                    have hc2 : c2 = '\n' := by
                      rw [hdec, hp1] at hcsh
                      simpa using hcsh
                    subst hc2
                    simp [hasBareCR]
                · exact hasBareCR_cons hc
              refine ⟨stN, ds, ?_, hwN, by rw [hsN, bump_src],
                by rw [heN, bump_errs], ?_, by rw [hdse, hbeq], hdsm⟩
              · simp only [rawStrLoopF]
                rw [hch]
                dsimp only
                rw [if_neg hq, if_neg hbare2, heq]
                have h1 : st.bump.pos + byteLen p.1 =
                    st.pos + byteLen (c :: p.1) := by
                  rw [bump_pos_eq hwf hcr]
                  show _ = st.pos + (utf8Len c + byteLen p.1)
                  omega
                rw [h1, hbeq]
              · rw [hcN, hcB]
                have h2 : (c :: p.1).length + N = (p.1.length + N) + 1 := by
                  simp [List.length_cons]
                  omega
                rw [h2, List.drop_succ_cons]

theorem drop_append_len (a : List Char) (b : List Char) (k : Nat) :
    (a ++ b).drop (a.length + k) = b.drop k := by
  induction a with
  | nil => simp
  | cons c t ih =>
    rw [List.cons_append, List.length_cons]
    rw [show t.length + 1 + k = (t.length + k) + 1 by omega,
      List.drop_succ_cons, ih]

/-- Reading a slice from the current position under the invariant
returns the corresponding prefix of the unread tail. -/
theorem sliceB_of_wf {st : LexState} {a b : List Char} (hwf : wf st)
    (hcr : chRest st = a ++ b) :
    sliceB st.src st.pos (st.pos + byteLen a) = a := by
  obtain ⟨pre, hsrc, hpre⟩ := wf_chRest hwf
  rw [hsrc, ← hpre, sliceB]
  rw [dropB_append, hcr]
  rw [show byteLen pre + byteLen a - byteLen pre = byteLen a by omega]
  exact takeB_append a b

/-- The raw byte string body loop with an all-ASCII body: it finds the
same fence as [[specFindClose]] and emits no diagnostic. -/
theorem rawByteStrLoopF_ok : ∀ (f : Nat) (st : LexState) (sb N : Nat)
    (body rest : List Char), wf st → (chRest st).length < f →
    specFindClose N (chRest st) = some (body, rest) →
    (∀ c ∈ body, ¬('\x7F' < c)) →
    ∃ stN, rawByteStrLoopF sb N f st = .ok (st.pos + byteLen body, stN) ∧
      wf stN ∧ stN.src = st.src ∧ stN.errs = st.errs ∧
      chRest stN = (chRest st).drop (body.length + N) := by
  intro f
  induction f with
  | zero => intro st sb N body rest hwf hlen hfc hascii; omega
  | succ f ih =>
    intro st sb N body rest hwf hlen hfc hascii
    cases hcr : chRest st with
    | nil => rw [hcr] at hfc; simp [specFindClose] at hfc
    | cons c cs =>
      have hch : st.ch = some c := by rw [wf_ch hwf, hcr]; rfl
      rw [hcr] at hfc
      simp only [specFindClose] at hfc
      by_cases hfence : c = '"' ∧ cs.take N = List.replicate N '#'
      · rw [if_pos hfence] at hfc
        simp only [Option.some.injEq, Prod.mk.injEq] at hfc
        obtain ⟨hb, hr⟩ := hfc
        subst hb
        subst hr
        obtain ⟨hq, htake⟩ := hfence
        subst hq
        have hdecomp : cs = List.replicate N '#' ++ cs.drop N := by
          rw [← htake]
          exact (List.take_append_drop N cs).symm
        obtain ⟨stN, hcf, hw, hs, he, hp, hcrest⟩ :=
          checkFence_true N st '"' (cs.drop N) hwf
            (by rw [hcr]; rw [← hdecomp]) (by decide)
        refine ⟨stN, ?_, hw, hs, he, ?_⟩
        · simp only [rawByteStrLoopF]
          rw [hch]
          simp only [reduceIte]
          rw [hcf]
          simp [byteLen]
        · rw [hcrest, ← hdecomp]
          simp
      · rw [if_neg hfence] at hfc
        cases hsc : specFindClose N cs with
        | none => rw [hsc] at hfc; simp at hfc
        | some p =>
          rw [hsc] at hfc
          simp only [Option.map_some', Option.some.injEq,
            Prod.mk.injEq] at hfc
          obtain ⟨hb, hr⟩ := hfc
          subst hb
          subst hr
          have hcs_len : cs.length < f := by
            have : (chRest st).length = cs.length + 1 := by rw [hcr]; rfl
            omega
          by_cases hq : c = '"'
          · subst hq
            have hnotake : ¬(cs.take N = List.replicate N '#') :=
              fun hcontra => hfence ⟨rfl, hcontra⟩
            obtain ⟨j, stF, hcf, hwF, hsF, heF, hj, htk, hpF, hcF⟩ :=
              checkFence_false N st '"' cs hwf hcr (by decide) hnotake
            obtain ⟨hdrop, hbtake⟩ := specFindClose_drop_hashes j htk hsc
            have hjle : j ≤ p.1.length := by
              have := congrArg List.length hbtake
              simp at this
              omega
            have hascii2 : ∀ ch2 ∈ List.drop j p.1, ¬('\x7F' < ch2) := by
              intro ch2 hmem
              exact hascii ch2 (List.mem_cons_of_mem _
                (List.mem_of_mem_drop hmem))
            obtain ⟨stN, heq, hwN, hsN, heN, hcN⟩ :=
              ih stF sb N (p.1.drop j) p.2 hwF
                (by rw [hcF]; have := List.length_drop j cs; omega)
                (by rw [hcF]; exact hdrop) hascii2
            have hblen : byteLen p.1 = j + byteLen (List.drop j p.1) := by
              conv_lhs => rw [← List.take_append_drop j p.1]
              rw [byteLen_append, hbtake, byteLen_replicate_hash]
            refine ⟨stN, ?_, hwN, by rw [hsN, hsF], by rw [heN, heF], ?_⟩
            · simp only [rawByteStrLoopF]
              rw [hch]
              simp only [reduceIte]
              rw [hcf]
              dsimp only
              rw [heq]
              have h1 : stF.pos + byteLen (List.drop j p.1) =
                  st.pos + byteLen ('"' :: p.1) := by
                rw [hpF]
                show _ = st.pos + (utf8Len '"' + byteLen p.1)
                rw [show utf8Len '"' = 1 by decide, hblen]
                omega
              rw [h1]
            · rw [hcN, hcF, List.drop_drop]
              have h2 : (List.drop j p.1).length = p.1.length - j := by
                simp
              have h3 : ('"' :: p.1).length + N = (p.1.length + N) + 1 := by
                simp [List.length_cons]
                omega
              rw [h2, h3, List.drop_succ_cons]
              congr 1
              omega
          · have hwB := wf_bump hwf
            have hcB : chRest st.bump = cs := by
              rw [chRest_bump hwf, hcr]
              rfl
            have hcmem : c ∈ c :: p.1 := List.mem_cons_self c p.1
            have hcn : ¬('\x7F' < c) := hascii c hcmem
            have hascii2 : ∀ ch2 ∈ p.1, ¬('\x7F' < ch2) := by
              intro ch2 hmem
              exact hascii ch2 (List.mem_cons_of_mem _ hmem)
            obtain ⟨stN, heq, hwN, hsN, heN, hcN⟩ :=
              ih st.bump sb N p.1 p.2 hwB
                (by rw [hcB]; omega) (by rw [hcB]; exact hsc) hascii2
            refine ⟨stN, ?_, hwN, by rw [hsN, bump_src],
              by rw [heN, bump_errs], ?_⟩
            · simp only [rawByteStrLoopF]
              rw [hch]
              dsimp only
              rw [if_neg hq, if_neg hcn, heq]
              have h1 : st.bump.pos + byteLen p.1 =
                  st.pos + byteLen (c :: p.1) := by
                rw [bump_pos_eq hwf hcr]
                show _ = st.pos + (utf8Len c + byteLen p.1)
                omega
              rw [h1]
            · rw [hcN, hcB]
              have h2 : (c :: p.1).length + N = (p.1.length + N) + 1 := by
                simp [List.length_cons]
                omega
              rw [h2, List.drop_succ_cons]

/-- The hash-counting loop accepts a run of `m ≤ 65535 − cnt` hashes. -/
theorem rawHashLoopF_ok : ∀ (m f : Nat) (st : LexState) (sb : Nat)
    (msg : String) (cnt : Nat) (u : List Char), wf st →
    chRest st = List.replicate m '#' ++ u → u.head? ≠ some '#' →
    m < f → cnt + m ≤ 65535 →
    ∃ stM, rawHashLoopF sb msg f st cnt = .ok (cnt + m, stM) ∧ wf stM ∧
      stM.src = st.src ∧ stM.errs = st.errs ∧ stM.pos = st.pos + m ∧
      chRest stM = u := by
  intro m
  induction m with
  | zero =>
    intro f st sb msg cnt u hwf hcr hu hf hle
    cases f with
    | zero => omega
    | succ f =>
      have hch : st.ch = u.head? := by rw [wf_ch hwf, hcr]; rfl
      have hno : st.ch_is '#' = false := by
        simp only [LexState.ch_is, hch]
        simpa using hu
      refine ⟨st, ?_, hwf, rfl, rfl, rfl, by rw [hcr]; rfl⟩
      simp only [rawHashLoopF]
      rw [hno]
      simp
  | succ m ih =>
    intro f st sb msg cnt u hwf hcr hu hf hle
    cases f with
    | zero => omega
    | succ f =>
      have hcr2 : chRest st = '#' :: (List.replicate m '#' ++ u) := by
        rw [hcr, List.replicate_succ]
        rfl
      have hch : st.ch = some '#' := by rw [wf_ch hwf, hcr2]; rfl
      have hyes : st.ch_is '#' = true := by simp [LexState.ch_is, hch]
      have hwB := wf_bump hwf
      have hcB : chRest st.bump = List.replicate m '#' ++ u := by
        rw [chRest_bump hwf, hcr2]
        rfl
      obtain ⟨stM, heq, hw, hs, he, hp, hc⟩ :=
        ih f st.bump sb msg (cnt + 1) u hwB hcB hu (by omega) (by omega)
      refine ⟨stM, ?_, hw, by rw [hs, bump_src], by rw [he, bump_errs],
        ?_, hc⟩
      · simp only [rawHashLoopF]
        rw [hyes]
        simp only [if_true]
        rw [if_neg (by omega : ¬cnt = 65535), heq,
          show cnt + 1 + m = cnt + (m + 1) by omega]
      · rw [hp, bump_pos_eq hwf hcr2]
        have : utf8Len '#' = 1 := by decide
        omega

/-- The hash-counting loop aborts with the too-many-hashes fatal error
once the 65536th hash is seen. -/
theorem rawHashLoopF_overflow : ∀ (m f : Nat) (st : LexState) (sb : Nat)
    (msg : String) (cnt : Nat) (t : List Char), wf st →
    chRest st = List.replicate m '#' ++ t → cnt ≤ 65535 →
    65536 ≤ cnt + m → 65535 - cnt < f →
    ∃ hi, rawHashLoopF sb msg f st cnt = .error (.fatal sb hi msg) := by
  intro m
  induction m with
  | zero => intro f st sb msg cnt t hwf hcr hcnt hm hf; omega
  | succ m ih =>
    intro f st sb msg cnt t hwf hcr hcnt hm hf
    cases f with
    | zero => omega
    | succ f =>
      have hcr2 : chRest st = '#' :: (List.replicate m '#' ++ t) := by
        rw [hcr, List.replicate_succ]
        rfl
      have hch : st.ch = some '#' := by rw [wf_ch hwf, hcr2]; rfl
      have hyes : st.ch_is '#' = true := by simp [LexState.ch_is, hch]
      by_cases hmax : cnt = 65535
      · refine ⟨st.next_pos, ?_⟩
        simp only [rawHashLoopF]
        rw [hyes]
        simp only [if_true]
        rw [if_pos hmax]
      · have hwB := wf_bump hwf
        have hcB : chRest st.bump = List.replicate m '#' ++ t := by
          rw [chRest_bump hwf, hcr2]
          rfl
        obtain ⟨hi, heq⟩ := ih f st.bump sb msg (cnt + 1) t hwB hcB
          (by omega) (by omega) (by omega)
        refine ⟨hi, ?_⟩
        simp only [rawHashLoopF]
        rw [hyes]
        simp only [if_true]
        rw [if_neg hmax, heq]

theorem drop_tail_succ (l : List Char) : ∀ n : Nat,
    (l.drop n).tail = l.drop (n + 1) := by
  induction l with
  | nil => intro n; simp
  | cons c t ih =>
    intro n
    cases n with
    | zero => simp
    | succ n => rw [List.drop_succ_cons, ih, List.drop_succ_cons]

/-- Dropping the body and the whole closing fence from the loop input
leaves exactly the leftover found by [[specFindClose]]. -/
theorem drop_body_fence (N : Nat) (body rest : List Char) :
    (body ++ '"' :: (List.replicate N '#' ++ rest)).drop
      (body.length + N + 1) = rest := by
  have h1 : (List.replicate N '#' ++ rest).drop N = rest := by
    simp
  rw [show body.length + N + 1 = body.length + (N + 1) by omega,
    drop_append_len, List.drop_succ_cons, h1]

/-- `scan_raw_string` on a well-delimited raw string: it returns
`StrRaw` with the fenced body (or the `??` placeholder if the body has a
bare CR), the hash count, the state parked after the closing fence, and
one bare-CR diagnostic per bare carriage return. -/
theorem scan_raw_string_spec (st : LexState) (N : Nat)
    (l body rest : List Char) (hwf : wf st)
    (hcr : chRest st = 'r' :: (List.replicate N '#' ++ '"' :: l))
    (hN : N ≤ 65535) (hfc : specFindClose N l = some (body, rest)) :
    ∃ st5 ds, scan_raw_string st =
        .ok (.strRaw (if hasBareCR body then ['?', '?'] else body) N,
          st5) ∧
      wf st5 ∧ st5.src = st.src ∧ st5.errs = st.errs ++ ds ∧
      chRest st5 = rest ∧ (ds = [] ↔ hasBareCR body = false) ∧
      (∀ d ∈ ds,
        d.msg = "bare CR not allowed in raw string, use \\r instead" ∧
        d.level = .error) := by
  have hw1 := wf_bump hwf
  have hc1 : chRest st.bump = List.replicate N '#' ++ '"' :: l := by
    rw [chRest_bump hwf, hcr]
    rfl
  obtain ⟨st2, heq2, hw2, hs2, he2, hp2, hc2⟩ :=
    rawHashLoopF_ok N (fuelOf st.bump) st.bump st.pos
      "too many `#` symbols: raw strings may be delimited by up to 65535 `#` symbols"
      0 ('"' :: l) hw1 hc1 (by simp)
      (by rw [fuelOf, hc1]; simp; omega) (by omega)
  rw [Nat.zero_add] at heq2
  have hch2 : st2.ch = some '"' := by rw [wf_ch hw2, hc2]; rfl
  have heof : st2.is_eof = false := by simp [LexState.is_eof, hch2]
  have hchq : st2.ch_is '"' = true := by simp [LexState.ch_is, hch2]
  have hw3 := wf_bump hw2
  have hc3 : chRest st2.bump = l := by
    rw [chRest_bump hw2, hc2]
    rfl
  obtain ⟨st4, ds, heq4, hw4, hs4, he4, hc4, hdsi, hdsa⟩ :=
    rawStrLoopF_ok (fuelOf st2.bump) st2.bump st.pos N true body rest hw3
      (by rw [fuelOf]; omega) (by rw [hc3]; exact hfc)
  have hdecomp := specFindClose_decomp hfc
  have hsrc4 : st4.src = st.src := by
    rw [hs4, bump_src, hs2, bump_src]
  have herrs4 : st4.errs = st.errs ++ ds := by
    rw [he4, bump_errs, he2, bump_errs]
  have hc5 : chRest st4.bump = rest := by
    rw [chRest_bump hw4, hc4, hc3, drop_tail_succ, hdecomp,
      drop_body_fence]
  have hid : st4.bump.name_from_to st2.bump.pos
      (st2.bump.pos + byteLen body) = body := by
    show sliceB st4.bump.src st2.bump.pos _ = body
    have hss : st4.bump.src = st2.bump.src := by rw [bump_src, hs4]
    rw [hss]
    exact sliceB_of_wf hw3 (by rw [hc3]; exact hdecomp)
  refine ⟨st4.bump, ds, ?_, wf_bump hw4, by rw [bump_src, hsrc4],
    by rw [bump_errs, herrs4], hc5, hdsi, hdsa⟩
  simp only [scan_raw_string, rawHashLoop, rawStrLoop]
  rw [heq2]
  dsimp only
  rw [heof]
  simp only [Bool.false_eq_true, reduceIte]
  rw [if_neg (not_not_intro hchq)]
  rw [heq4]
  dsimp only
  cases hb : hasBareCR body with
  | true => simp
  | false =>
    simp only [Bool.not_false, Bool.and_true, Bool.false_eq_true,
      reduceIte]
    rw [hid]

/-- `scan_raw_string` aborts with the too-many-hashes fatal error when
65536 hashes follow the `r`. -/
theorem scan_raw_string_too_many (st : LexState) (t : List Char)
    (hwf : wf st)
    (hcr : chRest st = 'r' :: (List.replicate 65536 '#' ++ t)) :
    ∃ hi, scan_raw_string st = .error (.fatal st.pos hi
      "too many `#` symbols: raw strings may be delimited by up to 65535 `#` symbols") := by
  have hw1 := wf_bump hwf
  have hc1 : chRest st.bump = List.replicate 65536 '#' ++ t := by
    rw [chRest_bump hwf, hcr]
    rfl
  obtain ⟨hi, heq⟩ :=
    rawHashLoopF_overflow 65536 (fuelOf st.bump) st.bump st.pos
      "too many `#` symbols: raw strings may be delimited by up to 65535 `#` symbols"
      0 t hw1 hc1 (by omega) (by omega)
      (by rw [fuelOf, hc1, List.length_append, List.length_replicate]
          omega)
  refine ⟨hi, ?_⟩
  simp only [scan_raw_string, rawHashLoop]
  rw [heq]

/-- `scan_raw_byte_string` on a well-delimited all-ASCII raw byte
string: it returns `ByteStrRaw` with the fenced body and the hash
count, leaves the diagnostics untouched, and parks the state after the
closing fence. -/
theorem scan_raw_byte_string_spec (st : LexState) (N : Nat)
    (l body rest : List Char) (hwf : wf st)
    (hcr : chRest st = 'r' :: (List.replicate N '#' ++ '"' :: l))
    (hN : N ≤ 65535) (hfc : specFindClose N l = some (body, rest))
    (hascii : ∀ c ∈ body, ¬('\x7F' < c)) :
    ∃ st5, scan_raw_byte_string st = .ok (.byteStrRaw body N, st5) ∧
      wf st5 ∧ st5.src = st.src ∧ st5.errs = st.errs ∧
      chRest st5 = rest := by
  have hw1 := wf_bump hwf
  have hc1 : chRest st.bump = List.replicate N '#' ++ '"' :: l := by
    rw [chRest_bump hwf, hcr]
    rfl
  obtain ⟨st2, heq2, hw2, hs2, he2, hp2, hc2⟩ :=
    rawHashLoopF_ok N (fuelOf st.bump) st.bump st.pos
      "too many `#` symbols: raw byte strings may be delimited by up to 65535 `#` symbols"
      0 ('"' :: l) hw1 hc1 (by simp)
      (by rw [fuelOf, hc1]; simp; omega) (by omega)
  rw [Nat.zero_add] at heq2
  have hch2 : st2.ch = some '"' := by rw [wf_ch hw2, hc2]; rfl
  have heof : st2.is_eof = false := by simp [LexState.is_eof, hch2]
  have hchq : st2.ch_is '"' = true := by simp [LexState.ch_is, hch2]
  have hw3 := wf_bump hw2
  have hc3 : chRest st2.bump = l := by
    rw [chRest_bump hw2, hc2]
    rfl
  obtain ⟨st4, heq4, hw4, hs4, he4, hc4⟩ :=
    rawByteStrLoopF_ok (fuelOf st2.bump) st2.bump st.pos N body rest hw3
      (by rw [fuelOf]; omega) (by rw [hc3]; exact hfc) hascii
  have hdecomp := specFindClose_decomp hfc
  have hsrc4 : st4.src = st.src := by
    rw [hs4, bump_src, hs2, bump_src]
  have herrs4 : st4.errs = st.errs := by
    rw [he4, bump_errs, he2, bump_errs]
  have hc5 : chRest st4.bump = rest := by
    rw [chRest_bump hw4, hc4, hc3, drop_tail_succ, hdecomp,
      drop_body_fence]
  have hid : st4.bump.name_from_to st2.bump.pos
      (st2.bump.pos + byteLen body) = body := by
    show sliceB st4.bump.src st2.bump.pos _ = body
    have hss : st4.bump.src = st2.bump.src := by rw [bump_src, hs4]
    rw [hss]
    exact sliceB_of_wf hw3 (by rw [hc3]; exact hdecomp)
  refine ⟨st4.bump, ?_, wf_bump hw4, by rw [bump_src, hsrc4],
    by rw [bump_errs, herrs4], hc5⟩
  simp only [scan_raw_byte_string, rawHashLoop, rawByteStrLoop]
  rw [heq2]
  dsimp only
  rw [heof]
  simp only [Bool.false_eq_true, reduceIte]
  rw [if_neg (not_not_intro hchq)]
  rw [heq4]
  dsimp only
  rw [hid]

theorem chRest_new_raw (src : List Char) : chRest (new_raw src) = src := by
  cases src with
  | nil => rfl
  | cons c t => rfl

/-- C4: raw string delimitation: any hash count `N ≤ 65535` is accepted
and the 65536th `#` is a fatal error; the body runs to the first `"`
followed by `N` hashes (a `"` followed by fewer hashes is body content,
which is what [[specFindClose]] expresses); the token is `StrRaw` with
the body and `N`. -/
theorem c4_raw_string :
    (∀ (st : LexState) (N : Nat) (l body rest : List Char), wf st →
      chRest st = 'r' :: (List.replicate N '#' ++ '"' :: l) →
      N ≤ 65535 → specFindClose N l = some (body, rest) →
      hasBareCR body = false →
      ∃ st5, scan_raw_string st = .ok (.strRaw body N, st5) ∧ wf st5 ∧
        st5.errs = st.errs ∧ chRest st5 = rest) ∧
    (∀ (st : LexState) (t : List Char), wf st →
      chRest st = 'r' :: (List.replicate 65536 '#' ++ t) →
      ∃ hi, scan_raw_string st = .error (.fatal st.pos hi
        "too many `#` symbols: raw strings may be delimited by up to 65535 `#` symbols")) := by
  constructor
  · intro st N l body rest hwf hcr hN hfc hbare
    obtain ⟨st5, ds, heq, hw5, _, herr, hrest, hdsi, _⟩ :=
      scan_raw_string_spec st N l body rest hwf hcr hN hfc
    rw [hbare] at heq
    simp only [Bool.false_eq_true, reduceIte] at heq
    rw [hdsi.mpr hbare, List.append_nil] at herr
    exact ⟨st5, heq, hw5, herr, hrest⟩
  · intro st t hwf hcr
    exact scan_raw_string_too_many st t hwf hcr

/-- C4 witness: `r#"a"#b` lexes to `StrRaw "a" 1` leaving `b`, and an
`r` followed by 65536 hashes is the too-many-hashes fatal error. -/
theorem c4_raw_string_witness :
    (∃ st5, scan_raw_string (new_raw ['r', '#', '"', 'a', '"', '#', 'b'])
        = .ok (.strRaw ['a'] 1, st5) ∧ wf st5 ∧ st5.errs = [] ∧
      chRest st5 = ['b']) ∧
    (∃ hi, scan_raw_string
        (new_raw ('r' :: (List.replicate 65536 '#' ++ ['x']))) =
      .error (.fatal
        (new_raw ('r' :: (List.replicate 65536 '#' ++ ['x']))).pos hi
        "too many `#` symbols: raw strings may be delimited by up to 65535 `#` symbols")) := by
  constructor
  · obtain ⟨st5, heq, hw5, herr, hrest⟩ :=
      c4_raw_string.1 (new_raw ['r', '#', '"', 'a', '"', '#', 'b']) 1
        ['a', '"', '#', 'b'] ['a'] ['b'] (wf_new_raw _)
        (chRest_new_raw _) (by decide) (by decide) (by decide)
    exact ⟨st5, heq, hw5, herr, hrest⟩
  · exact c4_raw_string.2
      (new_raw ('r' :: (List.replicate 65536 '#' ++ ['x']))) ['x']
      (wf_new_raw _) (chRest_new_raw _)

/-- C5: a bare CR in a raw string body is a recoverable error: the
"bare CR not allowed" diagnostics are emitted at error (not fatal)
level, scanning continues to the closing fence (the leftover after the
fence is what remains, so the suffix is scanned normally), and the
token is `StrRaw` with the `??` placeholder and the real hash count. -/
theorem c5_raw_string_bare_cr (st : LexState) (N : Nat)
    (l body rest : List Char) (hwf : wf st)
    (hcr : chRest st = 'r' :: (List.replicate N '#' ++ '"' :: l))
    (hN : N ≤ 65535) (hfc : specFindClose N l = some (body, rest))
    (hbare : hasBareCR body = true) :
    ∃ st5 ds, scan_raw_string st = .ok (.strRaw ['?', '?'] N, st5) ∧
      wf st5 ∧ st5.errs = st.errs ++ ds ∧ ds ≠ [] ∧
      (∀ d ∈ ds,
        d.msg = "bare CR not allowed in raw string, use \\r instead" ∧
        d.level = .error) ∧
      chRest st5 = rest := by
  obtain ⟨st5, ds, heq, hw5, _, herr, hrest, hdsi, hdsa⟩ :=
    scan_raw_string_spec st N l body rest hwf hcr hN hfc
  rw [hbare] at heq hdsi
  simp only [reduceIte] at heq
  refine ⟨st5, ds, heq, hw5, herr, ?_, hdsa, hrest⟩
  simpa using hdsi

/-- C5 witness: `r"a␍b"x` (a bare CR in the body) lexes to
`StrRaw "??" 0` with one recoverable bare-CR diagnostic, leaving `x`. -/
theorem c5_raw_string_bare_cr_witness :
    ∃ st5 ds, scan_raw_string
        (new_raw ['r', '"', 'a', '\r', 'b', '"', 'x']) =
      .ok (.strRaw ['?', '?'] 0, st5) ∧ wf st5 ∧ st5.errs = [] ++ ds ∧
      ds ≠ [] ∧
      (∀ d ∈ ds,
        d.msg = "bare CR not allowed in raw string, use \\r instead" ∧
        d.level = .error) ∧
      chRest st5 = ['x'] :=
  c5_raw_string_bare_cr (new_raw ['r', '"', 'a', '\r', 'b', '"', 'x']) 0
    ['a', '\r', 'b', '"', 'x'] ['a', '\r', 'b'] ['x'] (wf_new_raw _)
    (chRest_new_raw _) (by decide) (by decide) (by decide)

/-- C10: the raw byte string scanner performs no carriage-return check:
an all-ASCII body containing a bare CR is interned unchanged into
`ByteStrRaw` with no diagnostic emitted. -/
theorem c10_raw_byte_string (st : LexState) (N : Nat)
    (l body rest : List Char) (hwf : wf st)
    (hcr : chRest st = 'r' :: (List.replicate N '#' ++ '"' :: l))
    (hN : N ≤ 65535) (hfc : specFindClose N l = some (body, rest))
    (hascii : ∀ c ∈ body, ¬('\x7F' < c))
    (_hbare : hasBareCR body = true) :
    ∃ st5, scan_raw_byte_string st = .ok (.byteStrRaw body N, st5) ∧
      wf st5 ∧ st5.errs = st.errs ∧ chRest st5 = rest := by
  obtain ⟨st5, heq, hw5, _, herr, hrest⟩ :=
    scan_raw_byte_string_spec st N l body rest hwf hcr hN hfc hascii
  exact ⟨st5, heq, hw5, herr, hrest⟩

/-- C10 witness: `br"a␍b"x` (entered at the `r`, the `b` having been
consumed by the dispatcher) lexes to `ByteStrRaw "a\rb" 0` with no
diagnostic, leaving `x`. -/
theorem c10_raw_byte_string_witness :
    ∃ st5, scan_raw_byte_string
        ((new_raw ['b', 'r', '"', 'a', '\r', 'b', '"', 'x']).bump) =
      .ok (.byteStrRaw ['a', '\r', 'b'] 0, st5) ∧ wf st5 ∧
      st5.errs = [] ∧ chRest st5 = ['x'] :=
  c10_raw_byte_string
    ((new_raw ['b', 'r', '"', 'a', '\r', 'b', '"', 'x']).bump) 0
    ['a', '\r', 'b', '"', 'x'] ['a', '\r', 'b'] ['x']
    (wf_bump (wf_new_raw _)) (by decide) (by decide) (by decide)
    (by decide) (by decide)

/-- C7 witness: the terminated block comment `/** x*/` is a doc
comment. -/
theorem c7_block_doc_comment_witness :
    scan_block_comment ⟨"/** x*/".data, 2, 3, some '*', []⟩ =
      .ok (⟨.DocComment "/** x*/".data, 0, 7⟩,
        ⟨"/** x*/".data, 7, 7, none, []⟩) ∧
    (isDocCommentTok (token.Tok.DocComment "/** x*/".data) = true ↔
      ((((sliceB "/** x*/".data 0 7).take 3 = ['/', '*', '*'] ∧
         (sliceB "/** x*/".data 0 7)[3]? ≠ some '*') ∨
        (sliceB "/** x*/".data 0 7).take 3 = ['/', '*', '!']) ∧
       5 ≤ byteLen (sliceB "/** x*/".data 0 7))) :=
  ⟨by decide,
   (c7_block_doc_comment ⟨"/** x*/".data, 2, 3, some '*', []⟩
     ⟨"/** x*/".data, 7, 7, none, []⟩ ⟨.DocComment "/** x*/".data, 0, 7⟩
     (by decide)).1⟩

theorem stOk_refl {st : LexState} (h : wf st) : StOk st st :=
  ⟨h, rfl, le_rfl⟩

theorem stOk_trans {a b c : LexState} (h1 : StOk a b) (h2 : StOk b c) :
    StOk a c :=
  ⟨h2.1, h2.2.1.trans h1.2.1, h1.2.2.trans h2.2.2⟩

theorem bump_pos_ge {st : LexState} (h : wf st) : st.pos ≤ st.bump.pos := by
  rw [bump_pos, wf_next_pos h]
  cases chRest st <;> simp

theorem stOk_bump {st : LexState} (h : wf st) : StOk st st.bump :=
  ⟨wf_bump h, bump_src st, bump_pos_ge h⟩

theorem stOk_pushDiag {st : LexState} (h : wf st) (lo hi : Nat)
    (m : String) (lv : Level) : StOk st (st.pushDiag lo hi m lv) :=
  ⟨wf_pushDiag h lo hi m lv, rfl, le_rfl⟩

theorem stOk_wf {a b : LexState} (h : StOk a b) : wf b := h.1

theorem stOk_bump2 {st : LexState} (h : wf st) : StOk st st.bump.bump :=
  stOk_trans (stOk_bump h) (stOk_bump (wf_bump h))

theorem eatWhitespaceF_stOk : ∀ (f : Nat) (st : LexState), wf st →
    StOk st (eatWhitespaceF f st) := by
  intro f
  induction f with
  | zero => intro st h; exact stOk_refl h
  | succ f ih =>
    intro st h
    rw [eatWhitespaceF]
    split
    · exact stOk_trans (stOk_bump h) (ih _ (wf_bump h))
    · exact stOk_refl h

theorem eatIdentContinueF_stOk : ∀ (f : Nat) (st : LexState), wf st →
    StOk st (eatIdentContinueF f st) := by
  intro f
  induction f with
  | zero => intro st h; exact stOk_refl h
  | succ f ih =>
    intro st h
    rw [eatIdentContinueF]
    split
    · exact stOk_trans (stOk_bump h) (ih _ (wf_bump h))
    · exact stOk_refl h

theorem eatToEolF_stOk : ∀ (f : Nat) (st : LexState), wf st →
    StOk st (eatToEolF f st) := by
  intro f
  induction f with
  | zero => intro st h; exact stOk_refl h
  | succ f ih =>
    intro st h
    rw [eatToEolF]
    split
    · exact stOk_trans (stOk_bump h) (ih _ (wf_bump h))
    · exact stOk_refl h

theorem lineCommentLoopF_stOk : ∀ (f : Nat) (doc : Bool) (st : LexState),
    wf st → StOk st (lineCommentLoopF doc f st) := by
  intro f
  induction f with
  | zero => intro doc st h; exact stOk_refl h
  | succ f ih =>
    intro doc st h
    rw [lineCommentLoopF]
    split
    · exact stOk_refl h
    · split
      · exact stOk_refl h
      · split
        · split
          · exact stOk_refl h
          · split
            · exact stOk_trans (stOk_pushDiag h _ _ _ _)
                (stOk_trans (stOk_bump (wf_pushDiag h _ _ _ _))
                  (ih _ _ (wf_bump (wf_pushDiag h _ _ _ _))))
            · exact stOk_trans (stOk_bump h) (ih _ _ (wf_bump h))
        · exact stOk_trans (stOk_bump h) (ih _ _ (wf_bump h))

theorem blockCommentLoopF_stOk : ∀ (f : Nat) (d : Bool) (sb : Nat)
    (st st1 : LexState) (lv : Nat) (cr cr1 : Bool), wf st →
    blockCommentLoopF d sb f st lv cr = .ok (st1, cr1) →
    StOk st st1 := by
  intro f
  induction f with
  | zero => intro d sb st st1 lv cr cr1 h heq; simp [blockCommentLoopF] at heq
  | succ f ih =>
    intro d sb st st1 lv cr cr1 h heq
    rw [blockCommentLoopF] at heq
    split at heq
    · simp only [Except.ok.injEq, Prod.mk.injEq] at heq
      rw [← heq.1]
      exact stOk_refl h
    · split at heq
      · exact absurd heq (by simp)
      · split at heq
        · exact stOk_trans (stOk_bump2 h)
            (ih _ _ _ _ _ _ _ (wf_bump (wf_bump h)) heq)
        · split at heq
          · exact stOk_trans (stOk_bump2 h)
              (ih _ _ _ _ _ _ _ (wf_bump (wf_bump h)) heq)
          · split at heq
            · exact stOk_trans (stOk_bump h) (ih _ _ _ _ _ _ _ (wf_bump h) heq)
            · exact stOk_trans (stOk_bump h) (ih _ _ _ _ _ _ _ (wf_bump h) heq)

theorem scan_digitsF_stOk : ∀ (f real scanR : Nat) (st : LexState),
    wf st → StOk st (scan_digitsF real scanR f st).2 := by
  intro f
  induction f with
  | zero => intro real scanR st h; exact stOk_refl h
  | succ f ih =>
    intro real scanR st h
    rw [scan_digitsF]
    split
    · exact stOk_refl h
    · split
      · exact stOk_trans (stOk_bump h) (ih _ _ _ (wf_bump h))
      · split
        · show StOk st (scan_digitsF real scanR f _).2
          split
          · exact stOk_trans (stOk_pushDiag h _ _ _ _)
              (stOk_trans (stOk_bump (wf_pushDiag h _ _ _ _))
                (ih _ _ _ (wf_bump (wf_pushDiag h _ _ _ _))))
          · exact stOk_trans (stOk_bump h) (ih _ _ _ (wf_bump h))
        · exact stOk_refl h

theorem checkFence_stOk : ∀ (k : Nat) (st : LexState), wf st →
    StOk st (checkFence k st).2 := by
  intro k
  induction k with
  | zero => intro st h; exact stOk_refl h
  | succ k ih =>
    intro st h
    rw [checkFence]
    split
    · exact stOk_trans (stOk_bump h) (ih _ (wf_bump h))
    · exact stOk_bump h

theorem singleQuotedLoopF_stOk : ∀ (f sw : Nat) (msg : String)
    (fi : Bool) (st st1 : LexState), wf st →
    singleQuotedLoopF sw msg f fi st = .ok st1 → StOk st st1 := by
  intro f
  induction f with
  | zero => intro sw msg fi st st1 h heq; simp [singleQuotedLoopF] at heq
  | succ f ih =>
    intro sw msg fi st st1 h heq
    rw [singleQuotedLoopF] at heq
    split at heq
    · simp only [Except.ok.injEq] at heq
      rw [← heq]
      exact stOk_refl h
    · split at heq
      · exact stOk_trans (stOk_bump2 h)
          (ih _ _ _ _ _ (wf_bump (wf_bump h)) heq)
      · split at heq
        · exact absurd heq (by simp)
        · exact stOk_trans (stOk_bump h) (ih _ _ _ _ _ (wf_bump h) heq)

theorem doubleQuotedLoopF_stOk : ∀ (f sw : Nat) (msg : String)
    (st st1 : LexState), wf st →
    doubleQuotedLoopF sw msg f st = .ok st1 → StOk st st1 := by
  intro f
  induction f with
  | zero => intro sw msg st st1 h heq; simp [doubleQuotedLoopF] at heq
  | succ f ih =>
    intro sw msg st st1 h heq
    rw [doubleQuotedLoopF] at heq
    split at heq
    · simp only [Except.ok.injEq] at heq
      rw [← heq]
      exact stOk_refl h
    · split at heq
      · exact absurd heq (by simp)
      · split at heq
        · exact stOk_trans (stOk_bump2 h)
            (ih _ _ _ _ (wf_bump (wf_bump h)) heq)
        · exact stOk_trans (stOk_bump h) (ih _ _ _ _ (wf_bump h) heq)

theorem rawHashLoopF_stOk : ∀ (f sb : Nat) (msg : String)
    (st : LexState) (cnt cnt1 : Nat) (st1 : LexState), wf st →
    rawHashLoopF sb msg f st cnt = .ok (cnt1, st1) → StOk st st1 := by
  intro f
  induction f with
  | zero => intro sb msg st cnt cnt1 st1 h heq; simp [rawHashLoopF] at heq
  | succ f ih =>
    intro sb msg st cnt cnt1 st1 h heq
    rw [rawHashLoopF] at heq
    split at heq
    · split at heq
      · exact absurd heq (by simp)
      · exact stOk_trans (stOk_bump h) (ih _ _ _ _ _ _ (wf_bump h) heq)
    · simp only [Except.ok.injEq, Prod.mk.injEq] at heq
      rw [← heq.2]
      exact stOk_refl h

theorem rawStrLoopF_stOk : ∀ (f sb N : Nat) (valid : Bool)
    (st : LexState) (e : Nat) (v : Bool) (st1 : LexState), wf st →
    rawStrLoopF sb N f valid st = .ok (e, v, st1) → StOk st st1 := by
  intro f
  induction f with
  | zero => intro sb N valid st e v st1 h heq; simp [rawStrLoopF] at heq
  | succ f ih =>
    intro sb N valid st e v st1 h heq
    rw [rawStrLoopF] at heq
    split at heq
    · exact absurd heq (by simp)
    · split at heq
      · split at heq
        · rename_i heqf
          simp only [Except.ok.injEq, Prod.mk.injEq] at heq
          have h2 := checkFence_stOk N st h
          rw [heqf] at h2
          rw [← heq.2.2]
          exact h2
        · rename_i heqf
          have h2 := checkFence_stOk N st h
          rw [heqf] at h2
          exact stOk_trans h2 (ih _ _ _ _ _ _ _ (stOk_wf h2) heq)
      · split at heq
        · exact stOk_trans
            (stOk_trans (stOk_pushDiag h _ _ _ _)
              (stOk_bump (wf_pushDiag h _ _ _ _)))
            (ih _ _ _ _ _ _ _ (wf_bump (wf_pushDiag h _ _ _ _)) heq)
        · exact stOk_trans (stOk_bump h) (ih _ _ _ _ _ _ _ (wf_bump h) heq)

theorem rawByteStrLoopF_stOk : ∀ (f sb N : Nat) (st : LexState) (e : Nat)
    (st1 : LexState), wf st →
    rawByteStrLoopF sb N f st = .ok (e, st1) → StOk st st1 := by
  intro f
  induction f with
  | zero => intro sb N st e st1 h heq; simp [rawByteStrLoopF] at heq
  | succ f ih =>
    intro sb N st e st1 h heq
    simp only [rawByteStrLoopF] at heq
    split at heq
    · exact absurd heq (by simp)
    · split at heq
      · split at heq
        · rename_i heqf
          simp only [Except.ok.injEq, Prod.mk.injEq] at heq
          have h2 := checkFence_stOk N st h
          rw [heqf] at h2
          rw [← heq.2]
          exact h2
        · rename_i heqf
          have h2 := checkFence_stOk N st h
          rw [heqf] at h2
          exact stOk_trans h2 (ih _ _ _ _ _ (stOk_wf h2) heq)
      · split at heq
        · exact stOk_trans
            (stOk_trans (stOk_pushDiag h _ _ _ _)
              (stOk_bump (wf_pushDiag h _ _ _ _)))
            (ih _ _ _ _ _ (wf_bump (wf_pushDiag h _ _ _ _)) heq)
        · exact stOk_trans (stOk_bump h) (ih _ _ _ _ _ (wf_bump h) heq)

theorem bump_ch (st : LexState) : st.bump.ch = st.nextch := by
  unfold LexState.bump LexState.nextch
  cases (dropB st.src st.next_pos).head? <;> rfl

theorem chRest_of_ch {st : LexState} (h : wf st) {c : Char}
    (hc : st.ch = some c) : ∃ t, chRest st = c :: t := by
  rw [wf_ch h] at hc
  cases hcr : chRest st with
  | nil => rw [hcr] at hc; simp at hc
  | cons d t =>
    rw [hcr] at hc
    simp only [List.head?_cons, Option.some.injEq] at hc
    exact ⟨t, by rw [hc]⟩

theorem bump_pos_one {st : LexState} {c : Char} (h : wf st)
    (hc : st.ch = some c) (h1 : utf8Len c = 1) :
    st.bump.pos = st.pos + 1 := by
  obtain ⟨t, hcr⟩ := chRest_of_ch h hc
  rw [bump_pos_eq h hcr, h1]

theorem aligned_of_wf {st : LexState} (h : wf st) :
    Aligned st.src st.pos := by
  obtain ⟨pre, hsrc, hpre⟩ := wf_chRest h
  exact ⟨pre, chRest st, hsrc, hpre⟩

theorem stOk_setErrs {a b : LexState} (h : StOk a b) (e : List Diag) :
    StOk a { b with errs := e } :=
  ⟨h.1, h.2.1, h.2.2⟩

theorem wpc_spec {st : LexState} (h : wf st) :
    StOk st (whitespace_precondition_check st) ∧
    (whitespace_precondition_check st).pos = st.pos := by
  unfold whitespace_precondition_check
  split
  · split
    · exact ⟨stOk_pushDiag h _ _ _ _, rfl⟩
    · exact ⟨stOk_refl h, rfl⟩
  · exact ⟨stOk_refl h, rfl⟩

theorem stOk_ite {st a b : LexState} (P : Prop) [Decidable P]
    (ha : StOk st a) (hb : StOk st b) : StOk st (if P then a else b) := by
  split
  · exact ha
  · exact hb

theorem eatWhitespace_stOk {st : LexState} (h : wf st) :
    StOk st (eatWhitespace st) := eatWhitespaceF_stOk _ st h

theorem eatIdentContinue_stOk {st : LexState} (h : wf st) :
    StOk st (eatIdentContinue st) := eatIdentContinueF_stOk _ st h

theorem eatToEol_stOk {st : LexState} (h : wf st) :
    StOk st (eatToEol st) := eatToEolF_stOk _ st h

theorem lineCommentLoop_stOk (doc : Bool) {st : LexState} (h : wf st) :
    StOk st (lineCommentLoop doc st) := lineCommentLoopF_stOk _ doc st h

theorem scan_digits_stOk (real scanR : Nat) {st : LexState} (h : wf st) :
    StOk st (scan_digits real scanR st).2 := scan_digitsF_stOk _ _ _ _ h

theorem binop_stOk {st : LexState} (h : wf st) (op : token.BinOpToken) :
    StOk st (binop op st).2 ∧ (binop op st).1 ≠ .Eof := by
  unfold binop
  dsimp only
  split
  · exact ⟨stOk_bump2 h, by simp⟩
  · exact ⟨stOk_bump h, by simp⟩

theorem scan_optional_raw_name_stOk {st : LexState} (h : wf st) :
    StOk st (scan_optional_raw_name st).2 := by
  unfold scan_optional_raw_name
  dsimp only
  split
  · exact stOk_refl h
  · have h1 : StOk st (eatIdentContinue st.bump) :=
      stOk_trans (stOk_bump h) (eatIdentContinue_stOk (wf_bump h))
    split
    · exact stOk_trans h1 (stOk_pushDiag (stOk_wf h1) _ _ _ _)
    · exact h1

theorem scan_float_exponent_stOk {st : LexState} (h : wf st) :
    StOk st (scan_float_exponent st) := by
  unfold scan_float_exponent
  dsimp only
  split
  · have h2 : StOk st (if (st.bump.ch_is '-' || st.bump.ch_is '+') = true
        then st.bump.bump else st.bump) :=
      stOk_ite _ (stOk_bump2 h) (stOk_bump h)
    have h3 := stOk_trans h2 (scan_digits_stOk 10 10 (stOk_wf h2))
    generalize hr : scan_digits 10 10 (if (st.bump.ch_is '-' ||
      st.bump.ch_is '+') = true then st.bump.bump else st.bump) = r at h3 ⊢
    split
    · split
      · split
        · exact stOk_trans
            (stOk_trans (stOk_trans h3 (stOk_bump (stOk_wf h3)))
              (scan_digits_stOk 10 10 (wf_bump (stOk_wf h3))))
            (stOk_pushDiag (stOk_wf (stOk_trans
              (stOk_trans h3 (stOk_bump (stOk_wf h3)))
              (scan_digits_stOk 10 10 (wf_bump (stOk_wf h3))))) _ _ _ _)
        · exact stOk_trans h3 (stOk_pushDiag (stOk_wf h3) _ _ _ _)
      · exact stOk_trans h3 (stOk_pushDiag (stOk_wf h3) _ _ _ _)
    · exact h3
  · exact stOk_refl h

theorem check_float_base_stOk {st : LexState} (h : wf st)
    (a b bas : Nat) : StOk st (check_float_base st a b bas) := by
  unfold check_float_base
  split <;> first
    | exact stOk_pushDiag h _ _ _ _
    | exact stOk_refl h

theorem scanIntPart_stOk {st : LexState} (h : wf st) (c : Char) :
    StOk st (intPartState (scanIntPart c st)) := by
  unfold scanIntPart
  dsimp only
  split
  · split
    · exact stOk_trans (stOk_bump2 h) (scan_digits_stOk 2 10 (wf_bump (wf_bump h)))
    · split
      · exact stOk_trans (stOk_bump2 h) (scan_digits_stOk 8 10 (wf_bump (wf_bump h)))
      · split
        · exact stOk_trans (stOk_bump2 h) (scan_digits_stOk 16 16 (wf_bump (wf_bump h)))
        · split
          · exact stOk_trans (stOk_bump h) (scan_digits_stOk 10 10 (wf_bump h))
          · exact stOk_bump h
  · split
    · exact stOk_trans (stOk_bump h) (scan_digits_stOk 10 10 (wf_bump h))
    · exact stOk_bump h

theorem scan_number_stOk {st : LexState} (h : wf st) (c : Char) :
    StOk st (scan_number c st).2 := by
  unfold scan_number
  split
  · rename_i st1 heq
    have h1 := scanIntPart_stOk h c
    rw [heq] at h1
    exact h1
  · rename_i base n st1 heq
    have h1 : StOk st st1 := by
      have h0 := scanIntPart_stOk h c
      rw [heq] at h0
      exact h0
    split
    · exact stOk_trans h1 (stOk_pushDiag (stOk_wf h1) _ _ _ _)
    · split
      · have h2 : StOk st st1.bump := stOk_trans h1 (stOk_bump (stOk_wf h1))
        have h3 : StOk st (if (toDigit (st1.bump.ch.getD '\x00') 10).isSome = true
            then scan_float_exponent (scan_digits 10 10 st1.bump).2
            else st1.bump) :=
          stOk_ite _
            (stOk_trans (stOk_trans h2 (scan_digits_stOk 10 10 (stOk_wf h2)))
              (scan_float_exponent_stOk (stOk_wf (stOk_trans h2
                (scan_digits_stOk 10 10 (stOk_wf h2))))))
            h2
        exact stOk_trans h3 (check_float_base_stOk (stOk_wf h3) _ _ _)
      · split
        · have h2 := stOk_trans h1 (scan_float_exponent_stOk (stOk_wf h1))
          exact stOk_trans h2 (check_float_base_stOk (stOk_wf h2) _ _ _)
        · exact h1

theorem scan_single_quoted_string_stOk {sw : Nat} {msg : String}
    {st : LexState} {id : Symbol} {st2 : LexState} (h : wf st)
    (heq : scan_single_quoted_string sw msg st = .ok (id, st2)) :
    StOk st st2 := by
  unfold scan_single_quoted_string at heq
  dsimp only at heq
  split at heq
  · exact absurd heq (by simp)
  · rename_i st1 hb
    simp only [Except.ok.injEq, Prod.mk.injEq] at heq
    rw [← heq.2]
    split at hb
    · simp only [Except.ok.injEq] at hb
      rw [← hb]
      exact stOk_bump2 h
    · unfold singleQuotedLoop at hb
      exact stOk_trans (singleQuotedLoopF_stOk _ _ _ _ _ _ h hb)
        (stOk_bump (stOk_wf (singleQuotedLoopF_stOk _ _ _ _ _ _ h hb)))

theorem scan_double_quoted_string_stOk {msg : String} {st : LexState}
    {id : Symbol} {st2 : LexState} (h : wf st)
    (heq : scan_double_quoted_string msg st = .ok (id, st2)) :
    StOk st st2 := by
  unfold scan_double_quoted_string at heq
  dsimp only at heq
  unfold doubleQuotedLoop at heq
  split at heq
  · exact absurd heq (by simp)
  · rename_i st1 hb
    simp only [Except.ok.injEq, Prod.mk.injEq] at heq
    rw [← heq.2]
    have h1 := stOk_trans (stOk_bump h)
      (doubleQuotedLoopF_stOk _ _ _ _ _ (wf_bump h) hb)
    exact stOk_trans h1 (stOk_bump (stOk_wf h1))

theorem scan_raw_string_stOk {st : LexState} {l : token.Lit}
    {stR : LexState} (h : wf st)
    (heq : scan_raw_string st = .ok (l, stR)) : StOk st stR := by
  simp only [scan_raw_string, rawHashLoop] at heq
  split at heq
  · exact absurd heq (by simp)
  · rename_i cnt st2 hb
    have h2 := stOk_trans (stOk_bump h)
      (rawHashLoopF_stOk _ _ _ _ _ _ _ (wf_bump h) hb)
    split at heq
    · exact absurd heq (by simp)
    · split at heq
      · exact absurd heq (by simp)
      · unfold rawStrLoop at heq
        split at heq
        · exact absurd heq (by simp)
        · rename_i ce valid st4 hc
          simp only [Except.ok.injEq, Prod.mk.injEq] at heq
          rw [← heq.2]
          have h3 := stOk_trans (stOk_trans h2 (stOk_bump (stOk_wf h2)))
            (rawStrLoopF_stOk _ _ _ _ _ _ _ _ (wf_bump (stOk_wf h2)) hc)
          exact stOk_trans h3 (stOk_bump (stOk_wf h3))

theorem scan_raw_byte_string_stOk {st : LexState} {l : token.Lit}
    {stR : LexState} (h : wf st)
    (heq : scan_raw_byte_string st = .ok (l, stR)) : StOk st stR := by
  simp only [scan_raw_byte_string, rawHashLoop] at heq
  split at heq
  · exact absurd heq (by simp)
  · rename_i cnt st2 hb
    have h2 := stOk_trans (stOk_bump h)
      (rawHashLoopF_stOk _ _ _ _ _ _ _ (wf_bump h) hb)
    split at heq
    · exact absurd heq (by simp)
    · split at heq
      · exact absurd heq (by simp)
      · unfold rawByteStrLoop at heq
        split at heq
        · exact absurd heq (by simp)
        · rename_i ce st4 hc
          simp only [Except.ok.injEq, Prod.mk.injEq] at heq
          rw [← heq.2]
          have h3 := stOk_trans (stOk_trans h2 (stOk_bump (stOk_wf h2)))
            (rawByteStrLoopF_stOk _ _ _ _ _ _ (wf_bump (stOk_wf h2)) hc)
          exact stOk_trans h3 (stOk_bump (stOk_wf h3))

theorem stOk_bump3 {st : LexState} (h : wf st) :
    StOk st st.bump.bump.bump :=
  stOk_trans (stOk_bump2 h) (stOk_bump (wf_bump (wf_bump h)))

theorem ch_is_some {st : LexState} {c : Char} (h : st.ch_is c = true) :
    st.ch = some c := by
  simpa [LexState.ch_is] using h

/-- `scan_block_comment` (entered two bytes into the comment) returns a
non-`Eof` trivia token spanning from two bytes before its entry
position to its exit position. -/
theorem scan_block_comment_spec {st : LexState}
    {p : TokenAndSpan × LexState} (h : wf st)
    (heq : scan_block_comment st = .ok p) :
    StOk st p.2 ∧ p.1.lo = st.pos - 2 ∧ p.1.hi = p.2.pos ∧
    p.1.tok ≠ .Eof := by
  unfold scan_block_comment at heq
  dsimp only at heq
  split at heq
  · exact absurd heq (by simp)
  · rename_i stL cr hb
    unfold blockCommentLoop at hb
    have hL := blockCommentLoopF_stOk _ _ _ _ _ _ _ _ h hb
    split at heq
    · simp only [Except.ok.injEq] at heq
      rw [← heq]
      exact ⟨stOk_setErrs hL _, rfl, rfl, by simp⟩
    · simp only [Except.ok.injEq] at heq
      rw [← heq]
      exact ⟨hL, rfl, rfl, by simp⟩

/-- `scan_comment` under the invariant: the state moves monotonically;
a `none` result leaves the position unchanged, and a trivia token spans
from the entry position to the exit position and is never `Eof`. -/
theorem scan_comment_spec {st : LexState}
    {p : Option TokenAndSpan × LexState} (h : wf st)
    (heq : scan_comment st = .ok p) :
    StOk st p.2 ∧ (p.1 = none → p.2.pos = st.pos) ∧
    (∀ tas, p.1 = some tas →
      tas.lo = st.pos ∧ tas.hi = p.2.pos ∧ tas.tok ≠ .Eof) := by
  obtain ⟨hWok, hWpos⟩ := wpc_spec h
  have hW : wf (whitespace_precondition_check st) := stOk_wf hWok
  unfold scan_comment at heq
  dsimp only at heq
  split at heq
  · rename_i hch
    have hch' := ch_is_some hch
    have hb1 : (whitespace_precondition_check st).bump.pos =
        (whitespace_precondition_check st).pos + 1 :=
      bump_pos_one hW hch' (by decide)
    split at heq
    · rename_i hn
      have hb2 : (whitespace_precondition_check st).bump.bump.pos =
          (whitespace_precondition_check st).bump.pos + 1 :=
        bump_pos_one (wf_bump hW) (by rw [bump_ch]; exact hn) (by decide)
      simp only [Except.ok.injEq] at heq
      rw [← heq]
      refine ⟨stOk_trans hWok (stOk_trans (stOk_bump2 hW)
        (lineCommentLoop_stOk _ (wf_bump (wf_bump hW)))), by simp, ?_⟩
      intro tas htas
      simp only [Option.some.injEq] at htas
      rw [← htas]
      refine ⟨by dsimp only; omega, rfl, ?_⟩
      dsimp only
      split <;> simp
    · rename_i hn
      have hb2 : (whitespace_precondition_check st).bump.bump.pos =
          (whitespace_precondition_check st).bump.pos + 1 :=
        bump_pos_one (wf_bump hW) (by rw [bump_ch]; exact hn) (by decide)
      split at heq
      · exact absurd heq (by simp)
      · rename_i tasB stB hbb
        obtain ⟨hB, hBlo, hBhi, hBtok⟩ :=
          scan_block_comment_spec (wf_bump (wf_bump hW)) hbb
        simp only [Except.ok.injEq] at heq
        rw [← heq]
        refine ⟨stOk_trans hWok (stOk_trans (stOk_bump2 hW) hB), by simp, ?_⟩
        intro tas htas
        simp only [Option.some.injEq] at htas
        rw [← htas]
        exact ⟨by dsimp only at hBlo ⊢; omega, hBhi, hBtok⟩
    · simp only [Except.ok.injEq] at heq
      rw [← heq]
      exact ⟨hWok, fun _ => hWpos, fun tas htas => by simp at htas⟩
  · split at heq
    · split at heq
      · split at heq
        · simp only [Except.ok.injEq] at heq
          rw [← heq]
          exact ⟨hWok, fun _ => hWpos, fun tas htas => by simp at htas⟩
        · split at heq
          · simp only [Except.ok.injEq] at heq
            rw [← heq]
            have hE := stOk_trans hWok (eatToEol_stOk hW)
            refine ⟨hE, by simp, ?_⟩
            intro tas htas
            simp only [Option.some.injEq] at htas
            rw [← htas]
            exact ⟨hWpos, rfl, by simp⟩
          · simp only [Except.ok.injEq] at heq
            rw [← heq]
            exact ⟨hWok, fun _ => hWpos, fun tas htas => by simp at htas⟩
      · simp only [Except.ok.injEq] at heq
        rw [← heq]
        exact ⟨hWok, fun _ => hWpos, fun tas htas => by simp at htas⟩
    · simp only [Except.ok.injEq] at heq
      rw [← heq]
      exact ⟨hWok, fun _ => hWpos, fun tas htas => by simp at htas⟩

/-- `scan_whitespace_or_comment` under the invariant, with the same
reading as [[scan_comment_spec]]. -/
theorem scan_whitespace_or_comment_spec {st : LexState}
    {p : Option TokenAndSpan × LexState} (h : wf st)
    (heq : scan_whitespace_or_comment st = .ok p) :
    StOk st p.2 ∧ (p.1 = none → p.2.pos = st.pos) ∧
    (∀ tas, p.1 = some tas →
      tas.lo = st.pos ∧ tas.hi = p.2.pos ∧ tas.tok ≠ .Eof) := by
  unfold scan_whitespace_or_comment at heq
  dsimp only at heq
  split at heq
  · exact scan_comment_spec h heq
  · split at heq
    · simp only [Except.ok.injEq] at heq
      rw [← heq]
      refine ⟨eatWhitespace_stOk h, by simp, ?_⟩
      intro tas htas
      simp only [Option.some.injEq] at htas
      rw [← htas]
      exact ⟨rfl, rfl, by simp⟩
    · simp only [Except.ok.injEq] at heq
      rw [← heq]
      exact ⟨stOk_refl h, fun _ => rfl, fun tas htas => by simp at htas⟩

/-- `next_token_inner` under the invariant: every successful branch
moves the cursor monotonically over the same source and never emits
`Eof`. -/
theorem next_token_inner_spec {st : LexState} {p : token.Tok × LexState}
    (h : wf st) (heq : next_token_inner st = .ok p) :
    StOk st p.2 ∧ p.1 ≠ .Eof := by
  unfold next_token_inner at heq
  dsimp only at heq
  split at heq
  · exact absurd heq (by simp)
  · rename_i c hch
    generalize hpr : (if c = 'r' ∧ st.nextch = some '#' ∧
        ident_start st.nextnextch = true then ((true : Bool), (true : Bool))
      else if c = 'r' ∧ (st.nextch = some '"' ∨ st.nextch = some '#') ∨
          c = 'b' ∧ (st.nextch = some '"' ∨ st.nextch = some '\'') ∨
          c = 'b' ∧ st.nextch = some 'r' ∧
            (st.nextnextch = some '"' ∨ st.nextnextch = some '#') then
        ((false : Bool), (false : Bool))
      else ((true : Bool), (false : Bool))) = pr at heq
    split at heq
    · simp only [Except.ok.injEq] at heq
      rw [← heq]
      have hA : StOk st (if pr.2 = true then st.bump.bump else st) :=
        stOk_ite _ (stOk_bump2 h) (stOk_refl h)
      have hB := stOk_trans (stOk_trans hA (stOk_bump (stOk_wf hA)))
        (eatIdentContinue_stOk (wf_bump (stOk_wf hA)))
      exact ⟨stOk_ite _ (stOk_ite _
        (stOk_trans hB (stOk_pushDiag (stOk_wf hB) _ _ _ _)) hB) hB,
        by simp⟩
    · split at heq
      · simp only [Except.ok.injEq] at heq
        rw [← heq]
        exact ⟨stOk_trans (scan_number_stOk h c)
          (scan_optional_raw_name_stOk (stOk_wf (scan_number_stOk h c))),
          by simp⟩
      · split at heq
        · simp only [Except.ok.injEq] at heq
          rw [← heq]
          exact ⟨stOk_bump h, by simp⟩
        · simp only [Except.ok.injEq] at heq
          rw [← heq]
          exact ⟨stOk_bump h, by simp⟩
        · split at heq
          · split at heq
            · simp only [Except.ok.injEq] at heq
              rw [← heq]
              exact ⟨stOk_bump3 h, by simp⟩
            · split at heq
              · simp only [Except.ok.injEq] at heq
                rw [← heq]
                exact ⟨stOk_bump3 h, by simp⟩
              · simp only [Except.ok.injEq] at heq
                rw [← heq]
                exact ⟨stOk_bump2 h, by simp⟩
          · simp only [Except.ok.injEq] at heq
            rw [← heq]
            exact ⟨stOk_bump h, by simp⟩
        · simp only [Except.ok.injEq] at heq
          rw [← heq]
          exact ⟨stOk_bump h, by simp⟩
        · simp only [Except.ok.injEq] at heq
          rw [← heq]
          exact ⟨stOk_bump h, by simp⟩
        · simp only [Except.ok.injEq] at heq
          rw [← heq]
          exact ⟨stOk_bump h, by simp⟩
        · simp only [Except.ok.injEq] at heq
          rw [← heq]
          exact ⟨stOk_bump h, by simp⟩
        · simp only [Except.ok.injEq] at heq
          rw [← heq]
          exact ⟨stOk_bump h, by simp⟩
        · simp only [Except.ok.injEq] at heq
          rw [← heq]
          exact ⟨stOk_bump h, by simp⟩
        · simp only [Except.ok.injEq] at heq
          rw [← heq]
          exact ⟨stOk_bump h, by simp⟩
        · simp only [Except.ok.injEq] at heq
          rw [← heq]
          exact ⟨stOk_bump h, by simp⟩
        · simp only [Except.ok.injEq] at heq
          rw [← heq]
          exact ⟨stOk_bump h, by simp⟩
        · simp only [Except.ok.injEq] at heq
          rw [← heq]
          exact ⟨stOk_bump h, by simp⟩
        · split at heq
          · simp only [Except.ok.injEq] at heq
            rw [← heq]
            exact ⟨stOk_bump2 h, by simp⟩
          · simp only [Except.ok.injEq] at heq
            rw [← heq]
            exact ⟨stOk_bump h, by simp⟩
        · simp only [Except.ok.injEq] at heq
          rw [← heq]
          exact ⟨stOk_bump h, by simp⟩
        · split at heq
          · simp only [Except.ok.injEq] at heq
            rw [← heq]
            exact ⟨stOk_bump2 h, by simp⟩
          · split at heq
            · simp only [Except.ok.injEq] at heq
              rw [← heq]
              exact ⟨stOk_bump2 h, by simp⟩
            · simp only [Except.ok.injEq] at heq
              rw [← heq]
              exact ⟨stOk_bump h, by simp⟩
        · split at heq
          · simp only [Except.ok.injEq] at heq
            rw [← heq]
            exact ⟨stOk_bump2 h, by simp⟩
          · simp only [Except.ok.injEq] at heq
            rw [← heq]
            exact ⟨stOk_bump h, by simp⟩
        · split at heq
          · simp only [Except.ok.injEq] at heq
            rw [← heq]
            exact ⟨stOk_bump2 h, by simp⟩
          · simp only [Except.ok.injEq] at heq
            rw [← heq]
            exact ⟨stOk_trans (stOk_bump h) (binop_stOk (wf_bump h) .Shl).1, (binop_stOk (wf_bump h) .Shl).2⟩
          · simp only [Except.ok.injEq] at heq
            rw [← heq]
            exact ⟨stOk_bump2 h, by simp⟩
          · simp only [Except.ok.injEq] at heq
            rw [← heq]
            exact ⟨stOk_bump h, by simp⟩
        · split at heq
          · simp only [Except.ok.injEq] at heq
            rw [← heq]
            exact ⟨stOk_bump2 h, by simp⟩
          · simp only [Except.ok.injEq] at heq
            rw [← heq]
            exact ⟨stOk_trans (stOk_bump h) (binop_stOk (wf_bump h) .Shr).1, (binop_stOk (wf_bump h) .Shr).2⟩
          · simp only [Except.ok.injEq] at heq
            rw [← heq]
            exact ⟨stOk_bump h, by simp⟩
        · split at heq
          · have hCH := stOk_trans (stOk_bump2 h)
              (eatIdentContinue_stOk (wf_bump (wf_bump h)))
            split at heq
            · simp only [Except.ok.injEq] at heq
              rw [← heq]
              exact ⟨stOk_trans hCH (stOk_bump (stOk_wf hCH)), by simp⟩
            · simp only [Except.ok.injEq] at heq
              rw [← heq]
              exact ⟨stOk_ite _ (stOk_trans hCH (stOk_pushDiag (stOk_wf hCH) _ _ _ _)) hCH, by simp⟩
          · split at heq
            · exact absurd heq (by simp)
            · rename_i id2 st2x hb
              have hCH := stOk_trans (stOk_bump h)
                (scan_single_quoted_string_stOk (wf_bump h) hb)
              simp only [Except.ok.injEq] at heq
              rw [← heq]
              exact ⟨stOk_trans hCH (scan_optional_raw_name_stOk (stOk_wf hCH)), by simp⟩
        · split at heq
          · exact absurd heq (by simp)
          · rename_i l2 st2x hlit
            simp only [Except.ok.injEq] at heq
            rw [← heq]
            split at hlit
            · split at hlit
              · exact absurd hlit (by simp)
              · rename_i id3 st3 hb
                have hCH := stOk_trans (stOk_bump2 h)
                  (scan_single_quoted_string_stOk (wf_bump (wf_bump h)) hb)
                simp only [Except.ok.injEq, Prod.mk.injEq] at hlit
                rw [← hlit.2]
                exact ⟨stOk_trans hCH (scan_optional_raw_name_stOk (stOk_wf hCH)), by simp⟩
            · split at hlit
              · exact absurd hlit (by simp)
              · rename_i id3 st3 hb
                have hCH := stOk_trans (stOk_bump h)
                  (scan_double_quoted_string_stOk (wf_bump h) hb)
                simp only [Except.ok.injEq, Prod.mk.injEq] at hlit
                rw [← hlit.2]
                exact ⟨stOk_trans hCH (scan_optional_raw_name_stOk (stOk_wf hCH)), by simp⟩
            · have hCH := stOk_trans (stOk_bump h)
                (scan_raw_byte_string_stOk (wf_bump h) hlit)
              exact ⟨stOk_trans hCH (scan_optional_raw_name_stOk (stOk_wf hCH)), by simp⟩
            · exact absurd hlit (by simp)
        · split at heq
          · exact absurd heq (by simp)
          · rename_i id2 st1x hb
            have hCH := scan_double_quoted_string_stOk h hb
            simp only [Except.ok.injEq] at heq
            rw [← heq]
            exact ⟨stOk_trans hCH (scan_optional_raw_name_stOk (stOk_wf hCH)), by simp⟩
        · split at heq
          · exact absurd heq (by simp)
          · rename_i l2 st1x hb
            have hCH := scan_raw_string_stOk h hb
            simp only [Except.ok.injEq] at heq
            rw [← heq]
            exact ⟨stOk_trans hCH (scan_optional_raw_name_stOk (stOk_wf hCH)), by simp⟩
        · split at heq
          · simp only [Except.ok.injEq] at heq
            rw [← heq]
            exact ⟨stOk_bump2 h, by simp⟩
          · simp only [Except.ok.injEq] at heq
            rw [← heq]
            exact ⟨(binop_stOk h .Minus).1, (binop_stOk h .Minus).2⟩
        · split at heq
          · simp only [Except.ok.injEq] at heq
            rw [← heq]
            exact ⟨stOk_bump2 h, by simp⟩
          · simp only [Except.ok.injEq] at heq
            rw [← heq]
            exact ⟨(binop_stOk h .And).1, (binop_stOk h .And).2⟩
        · split at heq
          · simp only [Except.ok.injEq] at heq
            rw [← heq]
            exact ⟨stOk_bump2 h, by simp⟩
          · simp only [Except.ok.injEq] at heq
            rw [← heq]
            exact ⟨(binop_stOk h .Or).1, (binop_stOk h .Or).2⟩
        · simp only [Except.ok.injEq] at heq
          rw [← heq]
          exact ⟨(binop_stOk h .Plus).1, (binop_stOk h .Plus).2⟩
        · simp only [Except.ok.injEq] at heq
          rw [← heq]
          exact ⟨(binop_stOk h .Star).1, (binop_stOk h .Star).2⟩
        · simp only [Except.ok.injEq] at heq
          rw [← heq]
          exact ⟨(binop_stOk h .Slash).1, (binop_stOk h .Slash).2⟩
        · simp only [Except.ok.injEq] at heq
          rw [← heq]
          exact ⟨(binop_stOk h .Caret).1, (binop_stOk h .Caret).2⟩
        · simp only [Except.ok.injEq] at heq
          rw [← heq]
          exact ⟨(binop_stOk h .Percent).1, (binop_stOk h .Percent).2⟩
        · exact absurd heq (by simp)

/-- `advance_token` under the invariant: the returned span runs from
the entry position to the exit position of the returned cursor, over
the same source; at `Eof` the cursor does not move and sits at the end
of the source. -/
theorem advance_token_spec {st : LexState} {p : TokenAndSpan × LexState}
    (h : wf st) (heq : advance_token st = .ok p) :
    wf p.2 ∧ p.2.src = st.src ∧ p.1.lo = st.pos ∧ p.1.hi = p.2.pos ∧
    st.pos ≤ p.2.pos ∧
    (p.1.tok = .Eof → p.2.pos = st.pos ∧ p.2.pos = byteLen st.src) := by
  unfold advance_token at heq
  dsimp only at heq
  split at heq
  · exact absurd heq (by simp)
  · rename_i comment st1 hb
    obtain ⟨hOk, _, hsome⟩ := scan_whitespace_or_comment_spec h hb
    obtain ⟨hlo, hhi, htok⟩ := hsome comment rfl
    simp only [Except.ok.injEq] at heq
    rw [← heq]
    exact ⟨hOk.1, hOk.2.1, hlo, hhi, hOk.2.2,
      fun habs => absurd habs htok⟩
  · rename_i st1 hb
    obtain ⟨hOk, hnone, _⟩ := scan_whitespace_or_comment_spec h hb
    have hp1 : st1.pos = st.pos := hnone rfl
    split at heq
    · rename_i heof
      have hchn : st1.ch = none := by
        simpa [LexState.is_eof, Option.isNone_iff_eq_none] using heof
      have hpe : st1.pos = byteLen st1.src := (wf_eof_iff hOk.1).mp hchn
      simp only [Except.ok.injEq] at heq
      rw [← heq]
      refine ⟨hOk.1, hOk.2.1, ?_, ?_, hOk.2.2, fun _ => ⟨hp1, ?_⟩⟩
      · show byteLen st1.src = st.pos
        omega
      · show byteLen st1.src = st1.pos
        omega
      · rw [← hOk.2.1]
        exact hpe
    · split at heq
      · exact absurd heq (by simp)
      · rename_i tok2 st2 hnt
        obtain ⟨hN, hNe⟩ := next_token_inner_spec hOk.1 hnt
        simp only [Except.ok.injEq] at heq
        rw [← heq]
        refine ⟨hN.1, hN.2.1.trans hOk.2.1, hp1, rfl, ?_,
          fun habs => absurd habs hNe⟩
        show st.pos ≤ st2.pos
        have h2 : st1.pos ≤ st2.pos := hN.2.2
        omega

/-- `try_next_token` emits exactly the cached peek, refills the cache
with the following token, and preserves the reader invariant, with the
new cached span starting where the emitted one ended. -/
theorem try_next_token_spec {r : Reader} {q : TokenAndSpan × Reader}
    (hinv : ReaderInv r) (heq : try_next_token r = .ok q) :
    q.1 = ⟨r.peek_tok, r.peek_lo, r.peek_hi⟩ ∧ ReaderInv q.2 ∧
    q.2.st.src = r.st.src ∧ q.2.peek_lo = r.peek_hi := by
  unfold try_next_token at heq
  dsimp only at heq
  split at heq
  · exact absurd heq (by simp)
  · rename_i p2 st1 hb
    obtain ⟨hwf1, hsrc1, hlo, hhi, hle, heof⟩ := advance_token_spec hinv.1 hb
    have hlo' : p2.lo = r.st.pos := hlo
    have hhi' : p2.hi = st1.pos := hhi
    have hle' : r.st.pos ≤ st1.pos := hle
    simp only [Except.ok.injEq] at heq
    rw [← heq]
    refine ⟨rfl, ⟨hwf1, ?_, hhi, ?_, ?_⟩, hsrc1, ?_⟩
    · show p2.lo ≤ p2.hi
      omega
    · show Aligned st1.src p2.lo
      rw [hsrc1, hlo']
      exact aligned_of_wf hinv.1
    · intro he
      obtain ⟨he1, he2⟩ := heof he
      have he1' : st1.pos = r.st.pos := he1
      have he2' : st1.pos = byteLen r.st.src := he2
      show p2.lo = byteLen st1.src
      have hb2 : byteLen st1.src = byteLen r.st.src := by rw [hsrc1]
      omega
    · show p2.lo = r.peek_hi
      rw [hlo', hinv.2.2.1]

theorem takeB_zero' (l : List Char) : takeB l 0 = [] := by
  cases l <;> rfl

theorem prefix_total : ∀ (src p1 p2 : List Char), p1 <+: src →
    p2 <+: src → p1 <+: p2 ∨ p2 <+: p1 := by
  intro src
  induction src with
  | nil =>
    intro p1 p2 h1 h2
    rw [List.prefix_nil] at h1 h2
    rw [h1, h2]
    exact Or.inl List.nil_prefix
  | cons c t ih =>
    intro p1 p2 h1 h2
    cases p1 with
    | nil => exact Or.inl List.nil_prefix
    | cons a as =>
      cases p2 with
      | nil => exact Or.inr List.nil_prefix
      | cons b bs =>
        obtain ⟨s1, hs1⟩ := h1
        obtain ⟨s2, hs2⟩ := h2
        rw [List.cons_append] at hs1 hs2
        simp only [List.cons.injEq] at hs1 hs2
        obtain ⟨ha, hs1⟩ := hs1
        obtain ⟨hb, hs2⟩ := hs2
        subst ha
        subst hb
        rcases ih as bs ⟨s1, hs1⟩ ⟨s2, hs2⟩ with hp | hp
        · obtain ⟨m, hm⟩ := hp
          exact Or.inl ⟨m, by rw [List.cons_append, hm]⟩
        · obtain ⟨m, hm⟩ := hp
          exact Or.inr ⟨m, by rw [List.cons_append, hm]⟩

/-- Two character boundaries of the same buffer cut it into a slice and
a remainder: the slice between them followed by the tail from the
second is the tail from the first. -/
theorem aligned_slice_drop {src : List Char} {a b : Nat}
    (ha : Aligned src a) (hb : Aligned src b) (hab : a ≤ b) :
    sliceB src a b ++ dropB src b = dropB src a := by
  obtain ⟨pre, post, hsrc, hpre⟩ := ha
  obtain ⟨pre2, post2, hsrc2, hpre2⟩ := hb
  have hp1 : pre <+: src := ⟨post, hsrc.symm⟩
  have hp2 : pre2 <+: src := ⟨post2, hsrc2.symm⟩
  rcases prefix_total src pre pre2 hp1 hp2 with hpp | hpp
  · obtain ⟨mid, hmid⟩ := hpp
    have hpost : post = mid ++ post2 := by
      have : pre ++ post = pre ++ (mid ++ post2) := by
        rw [← hsrc, ← List.append_assoc, hmid, ← hsrc2]
      exact List.append_cancel_left this
    have hblen : byteLen mid = b - a := by
      have : byteLen (pre ++ mid) = b := by rw [hmid, hpre2]
      rw [byteLen_append, hpre] at this
      omega
    have hdropa : dropB src a = post := by rw [hsrc, ← hpre, dropB_append]
    have hdropb : dropB src b = post2 := by
      rw [hsrc2, ← hpre2, dropB_append]
    have hslice : sliceB src a b = mid := by
      rw [sliceB, hdropa, hpost, show b - a = byteLen mid by omega]
      exact takeB_append mid post2
    rw [hslice, hdropb, hdropa, hpost]
  · obtain ⟨mid, hmid⟩ := hpp
    have hmlen : byteLen mid = 0 := by
      have : byteLen (pre2 ++ mid) = a := by rw [hmid, hpre]
      rw [byteLen_append, hpre2] at this
      omega
    have hab2 : a = b := by
      have : byteLen (pre2 ++ mid) = a := by rw [hmid, hpre]
      rw [byteLen_append, hpre2] at this
      omega
    rw [← hab2, sliceB]
    rw [show a - a = 0 by omega, takeB_zero']
    rfl

/-- Driving the reader to completion tiles the byte range from the
cached span's start to the end of the source, and the slices under the
emitted spans concatenate to exactly the unemitted part of the
source. -/
theorem lexAll_spec : ∀ (fuel : Nat) (r : Reader)
    (toks : List TokenAndSpan), ReaderInv r →
    lexAll fuel r = some (.ok toks) →
    spanChain r.peek_lo (byteLen r.st.src) (spansOf toks) ∧
    slicesJoin r.st.src toks = dropB r.st.src r.peek_lo := by
  intro fuel
  induction fuel with
  | zero => intro r toks hinv heq; simp [lexAll] at heq
  | succ fuel ih =>
    intro r toks hinv heq
    rw [lexAll] at heq
    split at heq
    · exact absurd heq (by simp)
    · rename_i tas r1 hstep
      obtain ⟨htas, hinv1, hsrc1, hlo1⟩ := try_next_token_spec hinv hstep
      have htas' : tas = ⟨r.peek_tok, r.peek_lo, r.peek_hi⟩ := htas
      have hinv1' : ReaderInv r1 := hinv1
      have hsrc1' : r1.st.src = r.st.src := hsrc1
      have hlo1' : r1.peek_lo = r.peek_hi := hlo1
      split at heq
      · rename_i he
        simp only [Option.some.injEq, Except.ok.injEq] at heq
        rw [← heq]
        have hpe : r.peek_tok = .Eof := by
          rw [htas'] at he
          exact he
        have hL : r.peek_lo = byteLen r.st.src := hinv.2.2.2.2 hpe
        refine ⟨hL, ?_⟩
        rw [hL, dropB_byteLen]
        rfl
      · split at heq
        · exact absurd heq (by simp)
        · exact absurd heq (by simp)
        · rename_i ts hrec
          simp only [Option.some.injEq, Except.ok.injEq] at heq
          rw [← heq]
          obtain ⟨hchain, hjoin⟩ := ih r1 ts hinv1' hrec
          have hhi : tas.hi = r.peek_hi := by rw [htas']
          have hlo : tas.lo = r.peek_lo := by rw [htas']
          have hAhi : Aligned r.st.src r.peek_hi := by
            rw [hinv.2.2.1]
            exact aligned_of_wf hinv.1
          rw [hsrc1', hlo1'] at hchain hjoin
          constructor
          · show tas.lo = r.peek_lo ∧ tas.lo ≤ tas.hi ∧
              spanChain tas.hi (byteLen r.st.src) (spansOf ts)
            refine ⟨hlo, ?_, ?_⟩
            · rw [hlo, hhi]
              exact hinv.2.1
            · rw [hhi]
              exact hchain
          · show sliceB r.st.src tas.lo tas.hi ++
              slicesJoin r.st.src ts = dropB r.st.src r.peek_lo
            rw [hlo, hhi, hjoin]
            exact aligned_slice_drop hinv.2.2.2.1 hAhi hinv.2.1

/-- C1: span coverage and byte-exact round trip.  For every input whose
lexing runs to completion, the spans of the emitted tokens (trivia
included) tile the half-open byte range `[0, byteLen src)` in emission
order with no gaps and no overlaps, and concatenating the source slices
under the token spans reproduces the input exactly. -/
theorem c1_span_coverage (src : List Char) (fuel : Nat) (r : Reader)
    (toks : List TokenAndSpan)
    (h0 : new_or_buffered_errs src = .ok r)
    (h1 : lexAll fuel r = some (.ok toks)) :
    spanChain 0 (byteLen src) (spansOf toks) ∧
    slicesJoin src toks = src := by
  unfold new_or_buffered_errs at h0
  split at h0
  · exact absurd h0 (by simp)
  · rename_i p2 st1 hb
    simp only [Except.ok.injEq] at h0
    have hwf0 := wf_new_raw src
    obtain ⟨hwf1, hsrc1, hlo, hhi, hle, heof⟩ := advance_token_spec hwf0 hb
    have hsrcn : (new_raw src).src = src := bump_src (new_raw_internal src)
    have hposn : (new_raw src).pos = 0 := by cases src <;> rfl
    have hlo' : p2.lo = 0 := by
      have h2 : p2.lo = (new_raw src).pos := hlo
      rw [h2, hposn]
    have hsrc1' : st1.src = src := by
      have h2 : st1.src = (new_raw src).src := hsrc1
      rw [h2, hsrcn]
    have hinv : ReaderInv r := by
      rw [← h0]
      refine ⟨hwf1, ?_, hhi, ?_, ?_⟩
      · show p2.lo ≤ p2.hi
        have h2 : p2.hi = st1.pos := hhi
        have h3 : (new_raw src).pos ≤ st1.pos := hle
        omega
      · show Aligned st1.src p2.lo
        rw [hsrc1', hlo']
        exact ⟨[], src, rfl, rfl⟩
      · intro he
        obtain ⟨he1, he2⟩ := heof he
        have he2' : st1.pos = byteLen (new_raw src).src := he2
        have he1' : st1.pos = (new_raw src).pos := he1
        show p2.lo = byteLen st1.src
        rw [hlo', hsrc1']
        rw [hsrcn] at he2'
        omega
    obtain ⟨hchain, hjoin⟩ := lexAll_spec fuel r toks hinv h1
    have hrlo : r.peek_lo = 0 := by
      rw [← h0]
      exact hlo'
    have hrsrc : r.st.src = src := by
      rw [← h0]
      exact hsrc1'
    rw [hrlo, hrsrc] at hchain hjoin
    rw [dropB_zero] at hjoin
    exact ⟨hchain, hjoin⟩

/-- C1 witness: lexing `a b` yields `Ident a` at `[0,1)`, `Whitespace`
at `[1,2)` and `Ident b` at `[2,3)`, whose spans tile `[0,3)` and whose
slices concatenate back to the input. -/
theorem c1_span_coverage_witness :
    spanChain 0 (byteLen ['a', ' ', 'b'])
      (spansOf [⟨.Ident ['a'] false, 0, 1⟩, ⟨.Whitespace, 1, 2⟩,
        ⟨.Ident ['b'] false, 2, 3⟩]) ∧
    slicesJoin ['a', ' ', 'b']
      [⟨.Ident ['a'] false, 0, 1⟩, ⟨.Whitespace, 1, 2⟩,
        ⟨.Ident ['b'] false, 2, 3⟩] = ['a', ' ', 'b'] :=
  c1_span_coverage ['a', ' ', 'b'] 10
    ⟨⟨['a', ' ', 'b'], 1, 2, some ' ', []⟩, .Ident ['a'] false, 0, 1⟩
    [⟨.Ident ['a'] false, 0, 1⟩, ⟨.Whitespace, 1, 2⟩,
      ⟨.Ident ['b'] false, 2, 3⟩]
    (by decide) (by decide)

end RustLexer
